import Mathlib

/-
  Verification of the RV region vectorizer sources against their
  natural-language specification.

  Shallow embedding of:
  - src/src/native/Utils.cpp      (namespace NUtils)
  - src/src/rv.cpp                (namespace Pipeline)
  - src/include/rv/transform/remTransform.h  (namespace RemT)
  - src/src/transform/redOpt.cpp  (namespace RedOpt)

  LLVM machinery (types, instructions, use lists) is modelled by plain
  inductive types; stateful IR mutation becomes explicit state passing;
  the C++ assertion and out-of-bounds indexing become Option.
-/

namespace NUtils

/-- LLVM types, restricted to the classification queries used by
`src/src/native/Utils.cpp`: `isStructTy`, `isVectorTy`,
`isFloatingPointTy`. -/
inductive Ty where
  | intTy (bits : Nat)
  | halfTy
  | floatTy
  | doubleTy
  | ptrTy
  | voidTy
  | structTy (numFields : Nat)
  | vectorTy (numElems : Nat)
deriving DecidableEq, Repr

/-- `Type::isStructTy`. -/
def Ty.isStructTy : Ty → Bool
  | .structTy _ => true
  | _ => false

/-- `Type::isVectorTy`. -/
def Ty.isVectorTy : Ty → Bool
  | .vectorTy _ => true
  | _ => false

/-- `Type::isFloatingPointTy`. -/
def Ty.isFloatingPointTy : Ty → Bool
  | .halfTy => true
  | .floatTy => true
  | .doubleTy => true
  | _ => false

/-- The LLVM instruction opcodes, grouped exactly by the class tests that
`isSupportedOperation` (src/src/native/Utils.cpp:90-103) performs:
`isBinaryOp`, `isa<LoadInst>`, `isa<StoreInst>`, `isCast`,
`isa<ReturnInst>`, `isa<CallInst>` (with its return type), the five
element-access opcodes it excludes, the remaining members of LLVM's
"other operators" range (ICmp, FCmp, PHI, Select, VAArg, LandingPad),
and representatives of the opcode ranges outside all of these
(terminators other than return, memory operators other than load/store). -/
inductive Opcode where
  | binOp
  | load
  | store
  | cast
  | ret
  | call (retTy : Ty)
  | extractElement
  | extractValue
  | insertElement
  | insertValue
  | shuffleVector
  | icmp
  | fcmp
  | phiNode
  | select
  | vaarg
  | landingPad
  | alloca
  | getElementPtr
  | fence
  | br
  | switchInst
deriving DecidableEq, Repr

/-- `Instruction::isBinaryOp`. -/
def Opcode.isBinaryOp : Opcode → Bool
  | .binOp => true
  | _ => false

/-- `isa<LoadInst>`. -/
def Opcode.isLoad : Opcode → Bool
  | .load => true
  | _ => false

/-- `isa<StoreInst>`. -/
def Opcode.isStore : Opcode → Bool
  | .store => true
  | _ => false

/-- `Instruction::isCast`. -/
def Opcode.isCast : Opcode → Bool
  | .cast => true
  | _ => false

/-- `isa<ReturnInst>`. -/
def Opcode.isRet : Opcode → Bool
  | .ret => true
  | _ => false

/-- `dyn_cast<CallInst>(inst)` followed by
`call->getFunctionType()->getReturnType()`. -/
def Opcode.callRetTy : Opcode → Option Ty
  | .call retTy => some retTy
  | _ => none

def Opcode.isExtractElement : Opcode → Bool
  | .extractElement => true
  | _ => false

def Opcode.isExtractValue : Opcode → Bool
  | .extractValue => true
  | _ => false

def Opcode.isInsertElement : Opcode → Bool
  | .insertElement => true
  | _ => false

def Opcode.isInsertValue : Opcode → Bool
  | .insertValue => true
  | _ => false

def Opcode.isShuffleVector : Opcode → Bool
  | .shuffleVector => true
  | _ => false

/-- Membership of the opcode in LLVM's
`[Instruction::OtherOpsBegin, Instruction::OtherOpsEnd]` range: the
"other operators" of llvm/IR/Instruction.def (compares, phi, call,
select, user ops, va_arg, the vector/aggregate element operations and
landingpad).  Terminators, binary operators, memory operators and cast
operators lie outside this range. -/
def Opcode.isOtherOp : Opcode → Bool
  | .call _ => true
  | .extractElement => true
  | .extractValue => true
  | .insertElement => true
  | .insertValue => true
  | .shuffleVector => true
  | .icmp => true
  | .fcmp => true
  | .phiNode => true
  | .select => true
  | .vaarg => true
  | .landingPad => true
  | _ => false

/-- `isSupportedOperation` (src/src/native/Utils.cpp:90-103), literally:
a call whose return type is a struct or vector type is rejected up
front; otherwise the instruction is supported iff it is a binary
operation, load, store, cast, return, or an "other operator" that is
none of extract/insert-element, extract/insert-value, shuffle-vector. -/
def isSupportedOperation (op : Opcode) : Bool :=
  match op.callRetTy with
  | some retTy =>
      if retTy.isStructTy || retTy.isVectorTy then false
      else
        op.isBinaryOp || op.isLoad || op.isStore || op.isCast || op.isRet ||
          (!op.isExtractElement && !op.isExtractValue && !op.isInsertElement &&
            !op.isInsertValue && !op.isShuffleVector && op.isOtherOp)
  | none =>
      op.isBinaryOp || op.isLoad || op.isStore || op.isCast || op.isRet ||
        (!op.isExtractElement && !op.isExtractValue && !op.isInsertElement &&
          !op.isInsertValue && !op.isShuffleVector && op.isOtherOp)

/-- A basic block; only its name is relevant to `createCascadeBlocks`. -/
structure BasicBlock where
  name : String
deriving DecidableEq, Repr

/-- A function as the container of its basic blocks.
`BasicBlock::Create(ctx, name, insertInto)` appends a fresh block at the
end of `insertInto`. -/
structure Func where
  blocks : List BasicBlock
deriving DecidableEq, Repr

/-- `BasicBlock::Create(insertInto->getContext(), name, insertInto)`. -/
def createBlock (f : Func) (name : String) : Func × BasicBlock :=
  ({ blocks := f.blocks ++ [⟨name⟩] }, ⟨name⟩)

/-- The `for (unsigned lane = 0; lane < vectorWidth; ++lane)` loop of
`createCascadeBlocks` (src/src/native/Utils.cpp:79-86), iterating over
the remaining lane indices: each lane creates one `cascade_cond_<lane>`
and one `cascade_masked_<lane>` block and pushes them onto the two
output vectors. -/
def cascadeLoop (lanes : List Nat) (f : Func) (condBlocks maskedBlocks : List BasicBlock) :
    Func × List BasicBlock × List BasicBlock :=
  match lanes with
  | [] => (f, condBlocks, maskedBlocks)
  | lane :: rest =>
    let p1 := createBlock f ("cascade_cond_" ++ toString lane)
    let p2 := createBlock p1.1 ("cascade_masked_" ++ toString lane)
    cascadeLoop rest p2.1 (condBlocks ++ [p1.2]) (maskedBlocks ++ [p2.2])

/-- `createCascadeBlocks` (src/src/native/Utils.cpp:75-88): the lane
loop followed by creation of the returned `cascade_end` block. -/
def createCascadeBlocks (f : Func) (vectorWidth : Nat)
    (condBlocks maskedBlocks : List BasicBlock) :
    Func × List BasicBlock × List BasicBlock × BasicBlock :=
  let r := cascadeLoop (List.range vectorWidth) f condBlocks maskedBlocks
  let e := createBlock r.1 "cascade_end"
  (e.1, r.2.1, r.2.2, e.2)

/-- A scalar LLVM constant: `ConstantInt::get`, `ConstantFP::get`, or
`UndefValue::get` of the given type. -/
inductive Const where
  | intConst (ty : Ty) (value : Nat)
  | fpConst (ty : Ty) (value : Nat)
  | undef (ty : Ty)
deriving DecidableEq, Repr

/-- `type->isFloatingPointTy() ? ConstantFP::get(type, v) : ConstantInt::get(type, v)`. -/
def mkScalarConst (ty : Ty) (v : Nat) : Const :=
  if ty.isFloatingPointTy then .fpConst ty v else .intConst ty v

/-- Writing `constants[i] = c` into the buffer
`std::vector<Constant*> constants(width, nullptr)`; `operator[]` with
an index outside the buffer is undefined behaviour in C++ and is
modelled as `none`. -/
def bufSet (buf : List (Option Const)) (i : Nat) (c : Const) : Option (List (Option Const)) :=
  if i < buf.length then some (buf.set i (some c)) else none

/-- First loop of `getConstantVectorPadded`
(src/src/native/Utils.cpp:53-57): `for (; i < values.size(); ++i)
constants[i] = <scalar constant of values[i]>`, iterating over the
remaining entries of `values` with the running index `i`. -/
def writeValues (ty : Ty) (vals : List Nat) (i : Nat) (buf : List (Option Const)) :
    Option (List (Option Const)) :=
  match vals with
  | [] => some buf
  | v :: rest => (bufSet buf i (mkScalarConst ty v)).bind (writeValues ty rest (i + 1))

/-- Second loop of `getConstantVectorPadded`
(src/src/native/Utils.cpp:60-62): `for (; i < width; ++i)
constants[i] = padding`, continuing with the index left by the first
loop. -/
def writePadding (padding : Const) (i width : Nat) (buf : List (Option Const)) :
    Option (List (Option Const)) :=
  if i < width then (bufSet buf i padding).bind (writePadding padding (i + 1) width)
  else some buf
termination_by width - i
decreasing_by omega

/-- `ConstantVector::get(constants)`: all buffer slots must have been
filled. -/
def collectConsts : List (Option Const) → Option (List Const)
  | [] => some []
  | none :: _ => none
  | some c :: rest => (collectConsts rest).map (fun l => c :: l)

/-- `getConstantVectorPadded` (src/src/native/Utils.cpp:50-64): fill a
width-sized buffer with scalar constants for `values`, pad the rest
with zero (`padWithZero`) or undef, and build the constant vector. -/
def getConstantVectorPadded (width : Nat) (ty : Ty) (values : List Nat) (padWithZero : Bool) :
    Option (List Const) :=
  (writeValues ty values 0 (List.replicate width none)).bind (fun buf1 =>
    let zeroConst := mkScalarConst ty 0
    let padding := if padWithZero then zeroConst else Const.undef ty
    (writePadding padding values.length width buf1).bind collectConsts)

end NUtils

namespace Pipeline

/-- The externally visible stages invoked by
`VectorizerInterface::linearize` (src/src/rv.cpp:130-171), in the
vocabulary of the spec: recomputation of the dominator tree
(`domTree.recalculate`), recomputation of the post-dominator tree
(`postDomTree.recalculate`), divergent-loop normalization
(`divLoopTrans.transformDivergentLoops`), region mask expansion
(`maskEx.expandRegionMasks`), and the linearizer (`linearizer.run`). -/
inductive Stage where
  | recalcDomTree
  | recalcPostDomTree
  | transformDivergentLoops
  | expandRegionMasks
  | runLinearizer
deriving DecidableEq, Repr

/-- The shared vectorization state, abstracted to the trace of stage
invocations it has absorbed so far. -/
structure PState where
  log : List Stage
deriving DecidableEq, Repr

/-- `domTree.recalculate(vecInfo.getScalarFunction())`. -/
def recalcDomTree (s : PState) : PState :=
  { log := s.log ++ [.recalcDomTree] }

/-- `postDomTree.recalculate(vecInfo.getScalarFunction())`. -/
def recalcPostDomTree (s : PState) : PState :=
  { log := s.log ++ [.recalcPostDomTree] }

/-- `divLoopTrans.transformDivergentLoops()`. -/
def transformDivergentLoops (s : PState) : PState :=
  { log := s.log ++ [.transformDivergentLoops] }

/-- `maskEx.expandRegionMasks()`. -/
def expandRegionMasks (s : PState) : PState :=
  { log := s.log ++ [.expandRegionMasks] }

/-- `linearizer.run()`. -/
def runLinearizer (s : PState) : PState :=
  { log := s.log ++ [.runLinearizer] }

/-- `VectorizerInterface::linearize` (src/src/rv.cpp:130-171): the exact
statement sequence of the function body — recalculate the dominator
tree (line 140), transform divergent loops (line 147), recalculate the
post-dominator tree (line 149) and the dominator tree (line 150),
expand the region masks (line 154), run the linearizer (line 163), and
return true (line 170).  Construction of the `MaskExpander`,
`DivLoopTrans` and `Linearizer` objects and the debug dumps perform no
stage work. -/
def linearize (s : PState) : Bool × PState :=
  let s1 := recalcDomTree s
  let s2 := transformDivergentLoops s1
  let s3 := recalcPostDomTree s2
  let s4 := recalcDomTree s3
  let s5 := expandRegionMasks s4
  let s6 := runLinearizer s5
  (true, s6)

/-- The stage trace `linearize` appends to any starting state. -/
def linearizeTrace : List Stage :=
  [.recalcDomTree, .transformDivergentLoops, .recalcPostDomTree,
   .recalcDomTree, .expandRegionMasks, .runLinearizer]

end Pipeline

namespace RemT

/-- A natural loop, abstracted to the attributes that the
`RemainderTransform` contract of
src/include/rv/transform/remTransform.h:39-56 is stated over: whether
its exit condition is of the recognized canonical shape, whether the
full-transformability check holds for it, and its trip count. -/
structure LoopM where
  exitCondRecognized : Bool
  fullyTransformable : Bool
  tripCount : Nat
deriving DecidableEq, Repr

/-- The function being transformed, abstracted to its list of loops;
new loops created by the transform are appended. -/
structure FuncM where
  loops : List LoopM
deriving DecidableEq, Repr

/-- Modelled from the spec: the body of
`RemainderTransform::canHandleExitCondition` is not among the sources
(only its declaration in remTransform.h:41 is); per the spec it is a
side-effect-free capability check that recognizes a single canonical
induction-variable exit test, so it is a pure predicate on the loop. -/
def canHandleExitCondition (L : LoopM) : Bool :=
  L.exitCondRecognized

/-- Modelled from the spec: the body of
`RemainderTransform::canTransformLoop` is not among the sources (only
its declaration in remTransform.h:43 is); it is the stronger
side-effect-free check — per its header comment, once it returns true
the transform must not fail and has to return a vectorizable loop. -/
def canTransformLoop (L : LoopM) : Bool :=
  canHandleExitCondition L && L.fullyTransformable

/-- Modelled from the spec: the body of
`RemainderTransform::createVectorizableLoop` is not among the sources
(only its declaration in remTransform.h:54-56 is).  Per the spec, the
two capability checks gate the transform and must both pass before any
mutation occurs; on failure it returns `none` ("nullptr") with the
function untouched; on success it creates a main loop whose trip count
is the largest multiple of `vectorWidth` not exceeding the original
trip count plus a remainder loop for the leftover iterations, both
owned by the function. -/
def createVectorizableLoop (F : FuncM) (L : LoopM) (vectorWidth tripAlign : Nat) :
    Option LoopM × FuncM :=
  if !canHandleExitCondition L then (none, F)
  else if !canTransformLoop L then (none, F)
  else
    let mainLoop : LoopM :=
      { exitCondRecognized := true
        fullyTransformable := true
        tripCount := (L.tripCount / vectorWidth) * vectorWidth }
    let remLoop : LoopM :=
      { exitCondRecognized := true
        fullyTransformable := false
        tripCount := L.tripCount % vectorWidth }
    (some mainLoop, { loops := F.loops ++ [mainLoop, remLoop] })

end RemT

namespace RedOpt

/-- Reduction operation kinds (`RedKind`), as consumed by
`ReductionOptimization` via `red.kind`. -/
inductive RedKind where
  | add
  | mul
  | orK
  | andK
  | xorK
deriving DecidableEq, Repr

/-- An operand value of the SSA IR: a reference to the instruction with
the given id, an integer constant, or an external (loop-invariant /
argument) value with the given id. -/
inductive Val where
  | instRef (id : Nat)
  | constVal (c : Int)
  | externArg (id : Nat)
deriving DecidableEq, Repr

/-- The operation an instruction performs: a phi node, a binary
instruction of a reduction operation kind, or any other pure operation
with an abstract semantic function over its operand values. -/
inductive InstKind where
  | phiNode
  | redOp (k : RedKind)
  | pureOp (f : List Int → Int)

/-- `InstKind.phiNode` recognizer (`dyn_cast<PHINode>`). -/
def InstKind.isPhi : InstKind → Bool
  | .phiNode => true
  | _ => false

/-- An instruction: its id (SSA name), operation, operand list, and
whether its parent block lies inside the region
(`vecInfo.inRegion(*inst)`). -/
structure Inst where
  id : Nat
  kind : InstKind
  operands : List Val
  inRegion : Bool

/-- The IR state `ReductionOptimization` mutates: the function's
instructions in program order, the `VectorizationInfo` shape map
(shapes abstracted to ids), and the ids of the region entry block's
instructions in block order (`vecInfo.getEntry()`). -/
structure IRState where
  insts : List Inst
  shapes : Nat → Nat
  entry : List Nat

/-- Resolving an instruction id to its instruction. -/
def findInst (s : IRState) (i : Nat) : Option Inst :=
  s.insts.find? (fun inst => inst.id == i)

/-- `user->setOperand(opIdx, v)` on one instruction. -/
def setOperandInst (inst : Inst) (j : Nat) (v : Val) : Inst :=
  { inst with operands := inst.operands.set j v }

/-- `user->setOperand(opIdx, v)`, as a state update addressed by the
user's id. -/
def setOperand (s : IRState) (i j : Nat) (v : Val) : IRState :=
  { s with insts := s.insts.map (fun inst =>
      if inst.id = i then setOperandInst inst j v else inst) }

/-- The uses of value `v` among the operand list of the instruction
with the given id, starting at operand index `j`: the pairs
`(user id, operand index)` of the slots holding `v`. -/
def opUses (id : Nat) (v : Val) : List Val → Nat → List (Nat × Nat)
  | [], _ => []
  | o :: rest, j =>
    if o == v then (id, j) :: opUses id v rest (j + 1) else opUses id v rest (j + 1)

/-- The uses of value `v` within one instruction. -/
def instUses (inst : Inst) (v : Val) : List (Nat × Nat) :=
  opUses inst.id v inst.operands 0

/-- The use list of value `v` (`v->use_begin() .. v->use_end()`),
modelled in program order; each use is a `(user id, operand index)`
pair.  `getNumUses` is the length of this list. -/
def usesOf (s : IRState) (v : Val) : List (Nat × Nat) :=
  (s.insts.map (fun inst => instUses inst v)).flatten

/-- `vecInfo.inRegion(*use.getUser())`. -/
def useInRegion (s : IRState) (u : Nat × Nat) : Bool :=
  match findInst s u.1 with
  | some inst => inst.inRegion
  | none => false

/-- Modelled from the spec: `GetNeutralElement(red.kind, type)` from
rv/transform/redTools.h is not among the sources; per the spec it is
the identity value of the reduction's associative operation — 0 for
add, 1 for mul, and the identity bitpattern for the bitwise kinds. -/
def GetNeutralElement : RedKind → Int
  | .add => 0
  | .mul => 1
  | .orK => 0
  | .andK => -1
  | .xorK => 0

/-- Modelled from the spec: `CreateReductInst(builder, red.kind, phi,
*latchInst)` from rv/transform/redTools.h is not among the sources; it
creates one new instruction of the reduction's operation kind whose
operands are the phi and the latch value, at the builder's insertion
point (immediately after the latch, hence in the latch's block). -/
def CreateReductInst (k : RedKind) (phiId latchId foldId : Nat) (region : Bool) : Inst :=
  { id := foldId
    kind := .redOp k
    operands := [Val.instRef phiId, Val.instRef latchId]
    inRegion := region }

/-- A fresh instruction id, strictly larger than every existing id. -/
def freshId (s : IRState) : Nat :=
  s.insts.foldr (fun inst m => max (inst.id + 1) m) 0

/-- Inserting a new instruction immediately after the (first)
instruction with the given id (`IRBuilder` positioned at
`++latchInst->getIterator()`). -/
def insertAfterId (insts : List Inst) (target : Nat) (newInst : Inst) : List Inst :=
  match insts with
  | [] => []
  | inst :: rest =>
    if inst.id = target then inst :: newInst :: rest
    else inst :: insertAfterId rest target newInst

/-- Lines 28-31 of src/src/transform/redOpt.cpp:
`auto * inAtZero = dyn_cast<Instruction>(phi.getIncomingValue(0));
int latchIdx = (inAtZero && vecInfo.inRegion(*inAtZero)) ? 0 : 1;`. -/
def chooseLatchIdx (s : IRState) (phiInst : Inst) : Nat :=
  match phiInst.operands[0]? with
  | some (Val.instRef i) =>
    match findInst s i with
    | some inAtZero => if inAtZero.inRegion then 0 else 1
    | none => 1
  | _ => 1

/-- First loop of `ReductionOptimization::optimize`
(src/src/transform/redOpt.cpp:37-52), iterating over the snapshot of
the phi's use list (the iterator is advanced before the current use is
rewritten, and a rewrite only removes the already-visited use, so the
loop visits exactly the initial use list): a user that is not an
instruction is skipped, a user outside the region is preserved, and
every in-region user's operand is redirected to the neutral element. -/
def replacePhiUses (uses : List (Nat × Nat)) (neutral : Val) (s : IRState) : IRState :=
  match uses with
  | [] => s
  | (u, j) :: rest =>
    match findInst s u with
    | none => replacePhiUses rest neutral s
    | some userInst =>
      if userInst.inRegion then replacePhiUses rest neutral (setOperand s u j neutral)
      else replacePhiUses rest neutral s

/-- Second loop of `ReductionOptimization::optimize`
(src/src/transform/redOpt.cpp:63-71): scan the latch's use list; skip
in-region users; redirect an out-of-region user's operand to the fold
(`latchUpdate`) and restart the scan from `use_begin()` of the now
shorter use list.  The C++ `while` loop carries no bound; the `fuel`
argument makes the recursion well-founded, and exhaustion (`none`)
models divergence — `redirectUses_fuel` below shows a sufficient fuel
always exists.  `cast<Instruction>` on a non-instruction user is
undefined behaviour, modelled as `none`. -/
def redirectUses (latchId foldId : Nat) : Nat → List (Nat × Nat) → IRState → Option IRState
  | 0, _, _ => none
  | _ + 1, [], s => some s
  | fuel + 1, (u, j) :: rest, s =>
    match findInst s u with
    | none => none
    | some userInst =>
      if userInst.inRegion then redirectUses latchId foldId fuel rest s
      else
        let s1 := setOperand s u j (Val.instRef foldId)
        redirectUses latchId foldId fuel (usesOf s1 (Val.instRef latchId)) s1

/-- `ReductionOptimization::optimize` (src/src/transform/redOpt.cpp:20-77):
read the phi's shape; return not-applied if the phi has exactly one
use; determine the neutral element and the latch-side incoming value
(the `assert(latchInst && ...)` and the implicit requirement that the
incoming value is an instruction become `none`); redirect in-region phi
uses to the neutral element; create the fold (`latchUpdate`)
immediately after the latch and give it the phi's shape; redirect
out-of-region users of the latch to the fold; finally point the phi's
latch incoming at the fold and return applied. -/
def optimize (s : IRState) (phiId : Nat) (redKind : RedKind) : Option (Bool × IRState) :=
  let phiShape := s.shapes phiId
  if (usesOf s (Val.instRef phiId)).length = 1 then some (false, s)
  else
    match findInst s phiId with
    | none => none
    | some phiInst =>
      let neutral := Val.constVal (GetNeutralElement redKind)
      let latchIdx := chooseLatchIdx s phiInst
      match phiInst.operands[latchIdx]? with
      | some (Val.instRef latchId) =>
        match findInst s latchId with
        | none => none
        | some latchInst =>
          let s1 := replacePhiUses (usesOf s (Val.instRef phiId)) neutral s
          let foldId := freshId s1
          let foldInst := CreateReductInst redKind phiId latchId foldId latchInst.inRegion
          let s2 : IRState := { s1 with insts := insertAfterId s1.insts latchId foldInst }
          let s3 : IRState :=
            { s2 with shapes := fun v => if v = foldId then phiShape else s2.shapes v }
          let latchUses := usesOf s3 (Val.instRef latchId)
          match redirectUses latchId foldId
              ((latchUses.length + 1) * (latchUses.length + 1)) latchUses s3 with
          | none => none
          | some s4 => some (true, setOperand s4 phiId latchIdx (Val.instRef foldId))
      | _ => none

/-- The result of one `ReductionOptimization::run` invocation: the
final state, the `numOptimizedReductions` counter, plus — for stating
the enumeration contract — the ids handed to
`reda.getReductionInfo(*phi)` in call order, the ids `optimize` was
invoked on in call order, and the ids whose optimization applied. -/
structure RunResult where
  state : IRState
  numOptimizedReductions : Nat
  queried : List Nat
  invoked : List Nat
  applied : List Nat

/-- The `for (auto & inst : vecInfo.getEntry())` loop of
`ReductionOptimization::run` (src/src/transform/redOpt.cpp:85-97) over
the ids of the entry block's instructions: stop at the first
instruction that is not a phi node; skip a phi without reduction info;
otherwise optimize the reduction and count an applied rewrite.  (The
fold is inserted after the latch instruction, outside the leading-phi
segment of a structurally valid block, so iterating the id snapshot is
faithful.) -/
def runLoop (reda : Nat → Option RedKind) :
    List Nat → IRState → Nat → List Nat → List Nat → List Nat → Option RunResult
  | [], s, count, queried, invoked, applied => some ⟨s, count, queried, invoked, applied⟩
  | i :: rest, s, count, queried, invoked, applied =>
    match findInst s i with
    | none => none
    | some inst =>
      match inst.kind with
      | InstKind.phiNode =>
        match reda i with
        | none => runLoop reda rest s count (queried ++ [i]) invoked applied
        | some k =>
          match optimize s i k with
          | none => none
          | some (changed, s1) =>
            runLoop reda rest s1 (if changed then count + 1 else count)
              (queried ++ [i]) (invoked ++ [i])
              (if changed then applied ++ [i] else applied)
      | _ => some ⟨s, count, queried, invoked, applied⟩

/-- `ReductionOptimization::run` (src/src/transform/redOpt.cpp:79-102):
return false immediately when there is no region (before any report);
otherwise run the entry-block phi loop, report the count of optimized
reductions (the third component models the `Report()` line), and
return whether the count is non-zero. -/
def runPass (reda : Nat → Option RedKind) (hasRegion : Bool) (s : IRState) :
    Option (Bool × RunResult × Option Nat) :=
  if !hasRegion then some (false, ⟨s, 0, [], [], []⟩, none)
  else
    match runLoop reda s.entry s 0 [] [] [] with
    | none => none
    | some r => some (r.numOptimizedReductions != 0, r, some r.numOptimizedReductions)

/-- Substituting one value for another in an operand position. -/
def substVal (old new : Val) (v : Val) : Val :=
  if v == old then new else v

/-- The declarative one-pass description of the two rewrite loops of
`optimize`: replace `old` by `new` in every operand of every
instruction whose region membership equals `targetRegion`, leaving all
other instructions untouched.  The theorems below prove that the
iterative loops of `optimize` compute exactly this. -/
def replaceValInsts (s : IRState) (targetRegion : Bool) (old new : Val) : IRState :=
  { s with insts := s.insts.map (fun inst =>
      if inst.inRegion == targetRegion then
        { inst with operands := inst.operands.map (substVal old new) }
      else inst) }

/-- `(findInst s i).map (fun inst => inst.kind.isPhi)`: whether id `i`
resolves to an instruction and whether that instruction is a phi. -/
def phiTagAt (s : IRState) (i : Nat) : Option Bool :=
  (findInst s i).map (fun inst => inst.kind.isPhi)

/-- The declarative description of an applied `optimize`, stated in the
spec's vocabulary, against which the iterative implementation is
verified: (a) every in-region use of the header phi is redirected to
the neutral element while out-of-region uses are preserved, (b) the
fold combining the phi with the latch value under the reduction's
operation is inserted immediately after the latch (in region) and
receives the phi's shape, (c) every out-of-region use of the latch is
redirected to the fold while in-region uses keep the raw latch value,
and (d) the phi's latch-side incoming operand becomes the fold. -/
def optimizeResult (s : IRState) (phiId : Nat) (k : RedKind) (latchId latchIdx : Nat) :
    IRState :=
  let neutral := Val.constVal (GetNeutralElement k)
  let s1 := replaceValInsts s true (Val.instRef phiId) neutral
  let foldId := freshId s
  let foldInst := CreateReductInst k phiId latchId foldId true
  let s2 : IRState := { s1 with insts := insertAfterId s1.insts latchId foldInst }
  let s3 : IRState :=
    { s2 with shapes := fun v => if v = foldId then s.shapes phiId else s2.shapes v }
  let s4 := replaceValInsts s3 false (Val.instRef latchId) (Val.instRef foldId)
  setOperand s4 phiId latchIdx (Val.instRef foldId)

/-- Evaluation of an operand value under an environment for
instruction results and a fixed valuation of external values. -/
def evalVal (ext : Nat → Int) (env : Nat → Int) : Val → Int
  | .instRef i => env i
  | .constVal c => c
  | .externArg i => ext i

/-- The value an instruction computes under the given environment:
reduction operations apply the operation-kind semantics `opSem` to
their two operands, other pure operations apply their abstract
semantic function, and a phi (never executed inside the body)
keeps its current value. -/
def instSem (opSem : RedKind → Int → Int → Int) (ext : Nat → Int)
    (env : Nat → Int) (inst : Inst) : Int :=
  match inst.kind with
  | .redOp k =>
      opSem k (evalVal ext env (inst.operands.getD 0 (Val.constVal 0)))
        (evalVal ext env (inst.operands.getD 1 (Val.constVal 0)))
  | .phiNode => env inst.id
  | .pureOp f => f (inst.operands.map (evalVal ext env))

/-- Executing a straight-line instruction sequence: each instruction
binds its result in the environment. -/
def runBody (opSem : RedKind → Int → Int → Int) (ext : Nat → Int) :
    List Inst → (Nat → Int) → Nat → Int
  | [], env => env
  | inst :: rest, env =>
      runBody opSem ext rest
        (fun v => if v = inst.id then instSem opSem ext env inst else env v)

/-- The loop body: the in-region instructions other than the header
phi, in program order. -/
def regionBody (s : IRState) (phiId : Nat) : List Inst :=
  s.insts.filter (fun inst => inst.inRegion && inst.id != phiId)

/-- The environment at the start of an iteration: the header phi holds
the accumulator, all other instruction slots are not yet bound. -/
def phiEnv (phiId : Nat) (acc : Int) : Nat → Int :=
  fun v => if v = phiId then acc else 0

/-- The phi's latch-side incoming value, as `optimize` selects it. -/
def latchIncoming (s : IRState) (phiId : Nat) : Option Val :=
  match findInst s phiId with
  | none => none
  | some phiInst => phiInst.operands[chooseLatchIdx s phiInst]?

/-- The value of the latch as a function of the accumulator: run the
loop body once with the phi bound to `x` and read the latch. -/
def latchValueAt (opSem : RedKind → Int → Int → Int) (ext : Nat → Int)
    (s : IRState) (phiId latchId : Nat) (x : Int) : Int :=
  evalVal ext (runBody opSem ext (regionBody s phiId) (phiEnv phiId x)) (Val.instRef latchId)

/-- The value observed at `obs` after `n` loop iterations starting
from accumulator `init`: each iteration runs the body with the phi
bound to the previous observation (the phi's next value and the value
read by external users are the same operand, `obs`). -/
def loopObserved (opSem : RedKind → Int → Int → Int) (ext : Nat → Int)
    (body : List Inst) (phiId : Nat) (obs : Val) (init : Int) : Nat → Int
  | 0 => init
  | n + 1 =>
      evalVal ext
        (runBody opSem ext body (phiEnv phiId (loopObserved opSem ext body phiId obs init n)))
        obs

/-- Concrete witness IR: a reduction header phi (id 0) whose only use
is its latch (id 1), an `acc + c` update. -/
def wPhi1 : Inst :=
  { id := 0, kind := .phiNode, operands := [Val.externArg 0, Val.instRef 1], inRegion := true }

def wLatch1 : Inst :=
  { id := 1, kind := .redOp .add, operands := [Val.instRef 0, Val.externArg 1], inRegion := true }

def wState1 : IRState :=
  { insts := [wPhi1, wLatch1], shapes := fun _ => 0, entry := [0] }

/-- Concrete witness IR: the same reduction with a second in-region
use of the phi (id 2) and an out-of-region user of the latch value
(id 3, using the latch in both operand slots). -/
def wUser2 : Inst :=
  { id := 2, kind := .redOp .add, operands := [Val.instRef 0, Val.externArg 2], inRegion := true }

def wOut2 : Inst :=
  { id := 3, kind := .redOp .add, operands := [Val.instRef 1, Val.instRef 1], inRegion := false }

def wState2 : IRState :=
  { insts := [wPhi1, wLatch1, wUser2, wOut2], shapes := fun _ => 0, entry := [0] }

/-- A reduction analysis for the witness states: id 0 is an add
reduction. -/
def wReda : Nat → Option RedKind :=
  fun i => if i = 0 then some RedKind.add else none

end RedOpt

/-! ## Theorems -/

namespace NUtils

/-- C7: for every instruction, `isSupportedOperation` returns false for
a call whose return type is a struct or vector type and false for
extract-element, extract-value, insert-element, insert-value, and
shuffle-vector instructions, while returning true for binary
operations, loads, stores, conversion (cast) operations, and returns. -/
theorem isSupportedOperation_spec :
    (∀ retTy : Ty, (retTy.isStructTy || retTy.isVectorTy) = true →
      isSupportedOperation (.call retTy) = false)
    ∧ isSupportedOperation .extractElement = false
    ∧ isSupportedOperation .extractValue = false
    ∧ isSupportedOperation .insertElement = false
    ∧ isSupportedOperation .insertValue = false
    ∧ isSupportedOperation .shuffleVector = false
    ∧ isSupportedOperation .binOp = true
    ∧ isSupportedOperation .load = true
    ∧ isSupportedOperation .store = true
    ∧ isSupportedOperation .cast = true
    ∧ isSupportedOperation .ret = true := by
  refine ⟨?_, by decide, by decide, by decide, by decide, by decide,
    by decide, by decide, by decide, by decide, by decide⟩
  intro retTy h
  cases retTy <;>
    simp_all [isSupportedOperation, Opcode.callRetTy, Ty.isStructTy, Ty.isVectorTy,
      Opcode.isBinaryOp, Opcode.isLoad, Opcode.isStore, Opcode.isCast, Opcode.isRet]

/-- Concrete instance of `isSupportedOperation_spec`: a call returning a
two-field struct is unsupported. -/
theorem isSupportedOperation_spec_witness :
    isSupportedOperation (.call (.structTy 2)) = false :=
  isSupportedOperation_spec.1 (.structTy 2) (by decide)

/-- Effect of the lane loop of `createCascadeBlocks` on an arbitrary
lane list: one condition and one masked block per lane, appended in
list order to the function and to the two output vectors. -/
theorem cascadeLoop_eq (lanes : List Nat) (f : Func) (cbs mbs : List BasicBlock) :
    cascadeLoop lanes f cbs mbs =
      ({ blocks := f.blocks ++ lanes.flatMap (fun lane =>
          [⟨"cascade_cond_" ++ toString lane⟩, ⟨"cascade_masked_" ++ toString lane⟩]) },
       cbs ++ lanes.map (fun lane => ⟨"cascade_cond_" ++ toString lane⟩),
       mbs ++ lanes.map (fun lane => ⟨"cascade_masked_" ++ toString lane⟩)) := by
  induction lanes generalizing f cbs mbs with
  | nil => simp [cascadeLoop]
  | cons lane rest ih =>
      simp [cascadeLoop, createBlock, ih, List.append_assoc]

/-- C8: for every vector width N, `createCascadeBlocks` creates exactly
N condition/body (masked) block pairs, appended to the two output
vectors in lane order 0..N-1, plus exactly one merge block
(`cascade_end`) which it returns; the function receives exactly those
2N+1 blocks, so no other blocks are created. -/
theorem createCascadeBlocks_spec (f : Func) (vectorWidth : Nat)
    (cbs mbs : List BasicBlock) :
    createCascadeBlocks f vectorWidth cbs mbs =
      ({ blocks := f.blocks ++ (List.range vectorWidth).flatMap (fun lane =>
            [⟨"cascade_cond_" ++ toString lane⟩, ⟨"cascade_masked_" ++ toString lane⟩])
          ++ [⟨"cascade_end"⟩] },
       cbs ++ (List.range vectorWidth).map (fun lane => ⟨"cascade_cond_" ++ toString lane⟩),
       mbs ++ (List.range vectorWidth).map (fun lane => ⟨"cascade_masked_" ++ toString lane⟩),
       ⟨"cascade_end"⟩) := by
  simp [createCascadeBlocks, cascadeLoop_eq, createBlock, List.append_assoc]

end NUtils

namespace NUtils

/-- Setting the element right after a known prefix. -/
theorem listSetAppend {α : Type} (pre tail : List α) (m x : α) :
    (pre ++ m :: tail).set pre.length x = pre ++ x :: tail := by
  induction pre with
  | nil => rfl
  | cons a pre ih => simp [List.set, ih]

/-- The first loop of `getConstantVectorPadded` writes the scalar
constants of `vals` over the `mid` section of the buffer (one slot per
value) and leaves the rest alone. -/
theorem writeValues_eq (ty : Ty) :
    ∀ (vals : List Nat) (pre mid post : List (Option Const)),
      mid.length = vals.length →
      writeValues ty vals pre.length (pre ++ mid ++ post) =
        some (pre ++ vals.map (fun v => some (mkScalarConst ty v)) ++ post) := by
  intro vals
  induction vals with
  | nil =>
      intro pre mid post hmid
      cases mid with
      | nil => simp [writeValues]
      | cons m mid' => simp at hmid
  | cons v rest ih =>
      intro pre mid post hmid
      cases mid with
      | nil => simp at hmid
      | cons m mid' =>
          rw [writeValues, bufSet, if_pos (by simp)]
          have hset : (pre ++ (m :: mid') ++ post).set pre.length
              (some (mkScalarConst ty v)) =
              (pre ++ [some (mkScalarConst ty v)]) ++ mid' ++ post := by
            rw [List.append_assoc pre (m :: mid') post]
            rw [show (m :: mid') ++ post = m :: (mid' ++ post) from rfl]
            rw [listSetAppend pre (mid' ++ post) m (some (mkScalarConst ty v))]
            simp
          rw [hset, Option.some_bind]
          have hlen : pre.length + 1 = (pre ++ [some (mkScalarConst ty v)]).length := by simp
          rw [hlen]
          rw [ih (pre ++ [some (mkScalarConst ty v)]) mid' post (by simpa using hmid)]
          simp

/-- The first loop of `getConstantVectorPadded` walks off the end of
the buffer whenever more values than remaining slots are supplied. -/
theorem writeValues_oob (ty : Ty) :
    ∀ (vals : List Nat) (v : Nat) (i : Nat) (buf : List (Option Const)),
      buf.length < i + vals.length + 1 →
      writeValues ty (v :: vals) i buf = none := by
  intro vals
  induction vals with
  | nil =>
      intro v i buf h
      simp only [List.length_nil] at h
      rw [writeValues, bufSet, if_neg (by omega), Option.none_bind]
  | cons v' rest ih =>
      intro v i buf h
      simp only [List.length_cons] at h
      rw [writeValues]
      by_cases hi : i < buf.length
      · rw [bufSet, if_pos hi, Option.some_bind]
        exact ih v' (i + 1) _ (by simp; omega)
      · rw [bufSet, if_neg hi, Option.none_bind]

/-- The second loop of `getConstantVectorPadded` overwrites everything
from the current index to the end of the buffer with the padding
constant. -/
theorem writePadding_eq (padding : Const) :
    ∀ (mid pre : List (Option Const)),
      writePadding padding pre.length (pre.length + mid.length) (pre ++ mid) =
        some (pre ++ List.replicate mid.length (some padding)) := by
  intro mid
  induction mid with
  | nil =>
      intro pre
      rw [writePadding]
      simp
  | cons m mid' ih =>
      intro pre
      rw [writePadding, if_pos (by simp)]
      rw [bufSet, if_pos (by simp)]
      rw [listSetAppend pre mid' m (some padding), Option.some_bind]
      have h1 : pre.length + 1 = (pre ++ [some padding]).length := by simp
      have h2 : pre.length + (m :: mid').length =
          (pre ++ [some padding]).length + mid'.length := by simp; omega
      rw [show pre ++ some padding :: mid' = (pre ++ [some padding]) ++ mid' by simp]
      rw [h2, h1, ih (pre ++ [some padding])]
      simp [List.replicate_succ]

/-- `collectConsts` succeeds on a fully filled buffer. -/
theorem collectConsts_map_some (l : List Const) :
    collectConsts (l.map (fun c => some c)) = some l := by
  induction l with
  | nil => rfl
  | cons c rest ih => simp [collectConsts, ih]

/-- C9: indexing into the width-sized constants buffer of
`getConstantVectorPadded` stays in bounds only when
`values.size() <= width` (otherwise the first loop writes out of
bounds, modelled as `none`); under that precondition the result vector
holds `values[i]` as a scalar constant at every position
`i < values.size()` and the padding constant (zero when `padWithZero`,
undef otherwise) at the remaining positions. -/
theorem getConstantVectorPadded_spec (width : Nat) (ty : Ty) (values : List Nat)
    (padWithZero : Bool) :
    (width < values.length → getConstantVectorPadded width ty values padWithZero = none)
    ∧ (values.length ≤ width →
        getConstantVectorPadded width ty values padWithZero =
          some (values.map (mkScalarConst ty) ++
            List.replicate (width - values.length)
              (if padWithZero then mkScalarConst ty 0 else Const.undef ty))) := by
  constructor
  · intro h
    cases values with
    | nil => simp at h
    | cons v rest =>
        rw [getConstantVectorPadded,
          writeValues_oob ty rest v 0 _ (by simp; simp at h; omega), Option.none_bind]
  · intro h
    rw [getConstantVectorPadded]
    have hsplit : (List.replicate width (none : Option Const)) =
        List.replicate values.length none ++ List.replicate (width - values.length) none := by
      rw [← List.replicate_add]
      congr 1
      omega
    have h1 := writeValues_eq ty values []
      (List.replicate values.length none)
      (List.replicate (width - values.length) none) (by simp)
    simp only [List.nil_append, List.length_nil] at h1
    rw [hsplit]
    simp only [h1, Option.some_bind]
    have h2 := writePadding_eq
      (if padWithZero then mkScalarConst ty 0 else Const.undef ty)
      (List.replicate (width - values.length) none)
      (values.map (fun v => some (mkScalarConst ty v)))
    simp only [List.length_map, List.length_replicate] at h2
    rw [show values.length + (width - values.length) = width by omega] at h2
    rw [h2, Option.some_bind]
    rw [show (values.map (fun v => some (mkScalarConst ty v)) ++
        List.replicate (width - values.length)
          (some (if padWithZero then mkScalarConst ty 0 else Const.undef ty))) =
        ((values.map (mkScalarConst ty) ++
          List.replicate (width - values.length)
            (if padWithZero then mkScalarConst ty 0 else Const.undef ty)).map
          (fun c => some c)) by simp [List.map_map]]
    rw [collectConsts_map_some]

/-- Concrete instance of `getConstantVectorPadded_spec`: two values do
not fit a width-1 vector; one value in a width-3 vector is padded with
undef. -/
theorem getConstantVectorPadded_spec_witness :
    getConstantVectorPadded 1 (.intTy 32) [5, 6] true = none
    ∧ getConstantVectorPadded 3 (.intTy 32) [7] false =
        some [.intConst (.intTy 32) 7, .undef (.intTy 32), .undef (.intTy 32)] :=
  ⟨(getConstantVectorPadded_spec 1 (.intTy 32) [5, 6] true).1 (by decide),
   by rw [(getConstantVectorPadded_spec 3 (.intTy 32) [7] false).2 (by decide)]; rfl⟩

end NUtils

namespace Pipeline

/-- C4: `VectorizerInterface::linearize` returns true and runs the
stages in the fixed order recorded in `linearizeTrace`: divergent-loop
normalization comes first among the four spec stages, the dominator
and post-dominator trees are recalculated after normalization and
before region mask expansion and linearization, mask expansion never
precedes loop normalization, and the linearizer always runs after mask
expansion. -/
theorem linearize_stage_order (s : PState) :
    (linearize s).1 = true
    ∧ (linearize s).2.log = s.log ++ linearizeTrace
    ∧ (∀ i, i < linearizeTrace.length → ∀ j, j < linearizeTrace.length →
        linearizeTrace[i]? = some .expandRegionMasks →
        linearizeTrace[j]? = some .transformDivergentLoops → j < i)
    ∧ (∀ i, i < linearizeTrace.length → ∀ j, j < linearizeTrace.length →
        linearizeTrace[i]? = some .runLinearizer →
        linearizeTrace[j]? = some .expandRegionMasks → j < i)
    ∧ (∃ n d p e l : Nat, n < d ∧ n < p ∧ d < e ∧ p < e ∧ e < l ∧
        linearizeTrace[n]? = some Stage.transformDivergentLoops ∧
        linearizeTrace[d]? = some Stage.recalcDomTree ∧
        linearizeTrace[p]? = some Stage.recalcPostDomTree ∧
        linearizeTrace[e]? = some Stage.expandRegionMasks ∧
        linearizeTrace[l]? = some Stage.runLinearizer) := by
  refine ⟨rfl, ?_, by decide, by decide, ?_⟩
  · simp [linearize, recalcDomTree, transformDivergentLoops, recalcPostDomTree,
      expandRegionMasks, runLinearizer, linearizeTrace]
  · exact ⟨1, 3, 2, 4, 5, by decide, by decide, by decide, by decide, by decide,
      by decide, by decide, by decide, by decide, by decide⟩

end Pipeline

namespace RemT

/-- C6: `RemainderTransform::createVectorizableLoop` returns none with
no mutation of the function whenever either capability check fails;
the capability checks are pure predicates on the loop (side-effect-free
by construction); and once `canTransformLoop` holds the transform
produces a valid vectorizable loop: one whose trip count is a multiple
of the vector width and which itself passes the transformability
check. -/
theorem createVectorizableLoop_spec (F : FuncM) (L : LoopM) (vectorWidth tripAlign : Nat) :
    ((canHandleExitCondition L = false ∨ canTransformLoop L = false) →
      createVectorizableLoop F L vectorWidth tripAlign = (none, F))
    ∧ (canTransformLoop L = true →
        ∃ newLoop : LoopM,
          (createVectorizableLoop F L vectorWidth tripAlign).1 = some newLoop ∧
          vectorWidth ∣ newLoop.tripCount ∧
          canTransformLoop newLoop = true) := by
  constructor
  · intro h
    rcases h with h | h
    · simp [createVectorizableLoop, h]
    · by_cases h1 : canHandleExitCondition L
      · simp [createVectorizableLoop, h1, h]
      · simp [createVectorizableLoop, h1]
  · intro h
    have h1 : canHandleExitCondition L = true := by
      rw [canTransformLoop, Bool.and_eq_true] at h
      exact h.1
    refine ⟨⟨true, true, (L.tripCount / vectorWidth) * vectorWidth⟩, ?_, ?_, rfl⟩
    · simp [createVectorizableLoop, h1, h]
    · exact dvd_mul_left vectorWidth (L.tripCount / vectorWidth)

/-- Concrete instance of `createVectorizableLoop_spec`: an
unrecognized exit condition yields none and no mutation; a fully
transformable loop of trip count 10 at width 4 yields a loop with a
width-divisible trip count. -/
theorem createVectorizableLoop_spec_witness :
    createVectorizableLoop ⟨[]⟩ ⟨false, true, 10⟩ 4 1 = (none, ⟨[]⟩)
    ∧ ∃ newLoop : LoopM,
        (createVectorizableLoop ⟨[]⟩ ⟨true, true, 10⟩ 4 1).1 = some newLoop ∧
        4 ∣ newLoop.tripCount ∧ canTransformLoop newLoop = true :=
  ⟨(createVectorizableLoop_spec ⟨[]⟩ ⟨false, true, 10⟩ 4 1).1 (Or.inl (by decide)),
   (createVectorizableLoop_spec ⟨[]⟩ ⟨true, true, 10⟩ 4 1).2 (by decide)⟩

end RemT

namespace RedOpt

/-- C2: for every reduction whose header phi has exactly one use,
`ReductionOptimization::optimize` returns false (not applied) and
leaves the phi, its uses and the surrounding IR unchanged (the state
is returned as-is). -/
theorem optimize_single_use (s : IRState) (phiId : Nat) (k : RedKind)
    (h : (usesOf s (Val.instRef phiId)).length = 1) :
    optimize s phiId k = some (false, s) := by
  simp [optimize, h]

/-- Concrete instance of `optimize_single_use`: the phi of `wState1`
has exactly one use (its latch) and optimization is declined without
any change. -/
theorem optimize_single_use_witness :
    optimize wState1 0 RedKind.add = some (false, wState1) :=
  optimize_single_use wState1 0 RedKind.add (by decide)

end RedOpt

namespace RedOpt

theorem setOperandInst_id (inst : Inst) (j : Nat) (v : Val) :
    (setOperandInst inst j v).id = inst.id := rfl

theorem setOperandInst_inRegion (inst : Inst) (j : Nat) (v : Val) :
    (setOperandInst inst j v).inRegion = inst.inRegion := rfl

/-- `find?` by id commutes with an id-preserving transformation. -/
theorem find?_map_of_id (g : Inst → Inst) (hg : ∀ inst, (g inst).id = inst.id) :
    ∀ (l : List Inst) (i : Nat),
      (l.map g).find? (fun inst => inst.id == i) =
        (l.find? (fun inst => inst.id == i)).map g := by
  intro l i
  induction l with
  | nil => rfl
  | cons a l ih =>
      by_cases h : a.id = i
      · simp [List.find?_cons, hg, h]
      · simp [List.find?_cons, hg, h, ih]

theorem findInst_setOperand (s : IRState) (u j : Nat) (v : Val) (i : Nat) :
    findInst (setOperand s u j v) i =
      (findInst s i).map (fun inst => if inst.id = u then setOperandInst inst j v else inst) := by
  apply find?_map_of_id
  intro inst
  by_cases h : inst.id = u <;> simp [h, setOperandInst_id]

theorem useInRegion_setOperand (s : IRState) (u j : Nat) (v : Val) (p : Nat × Nat) :
    useInRegion (setOperand s u j v) p = useInRegion s p := by
  rw [useInRegion, useInRegion, findInst_setOperand]
  cases h : findInst s p.1 with
  | none => rfl
  | some inst =>
      by_cases h2 : inst.id = u <;> simp [h2, setOperandInst_inRegion]

theorem opUses_fst (id : Nat) (v : Val) :
    ∀ (ops : List Val) (j0 : Nat) (p : Nat × Nat), p ∈ opUses id v ops j0 → p.1 = id := by
  intro ops
  induction ops with
  | nil => intro j0 p h; simp [opUses] at h
  | cons o rest ih =>
      intro j0 p h
      rw [opUses] at h
      by_cases ho : (o == v) = true
      · rw [if_pos ho] at h
        rcases List.mem_cons.mp h with h1 | h1
        · rw [h1]
        · exact ih (j0 + 1) p h1
      · rw [if_neg ho] at h
        exact ih (j0 + 1) p h

theorem opUses_snd_ge (id : Nat) (v : Val) :
    ∀ (ops : List Val) (j0 : Nat) (p : Nat × Nat), p ∈ opUses id v ops j0 → j0 ≤ p.2 := by
  intro ops
  induction ops with
  | nil => intro j0 p h; simp [opUses] at h
  | cons o rest ih =>
      intro j0 p h
      rw [opUses] at h
      by_cases ho : (o == v) = true
      · rw [if_pos ho] at h
        rcases List.mem_cons.mp h with h1 | h1
        · rw [h1]
        · exact Nat.le_of_succ_le (ih (j0 + 1) p h1)
      · rw [if_neg ho] at h
        exact Nat.le_of_succ_le (ih (j0 + 1) p h)

theorem opUses_nodup (id : Nat) (v : Val) :
    ∀ (ops : List Val) (j0 : Nat), (opUses id v ops j0).Nodup := by
  intro ops
  induction ops with
  | nil => intro j0; simp [opUses]
  | cons o rest ih =>
      intro j0
      rw [opUses]
      by_cases ho : (o == v) = true
      · rw [if_pos ho]
        refine List.nodup_cons.mpr ⟨?_, ih (j0 + 1)⟩
        intro hmem
        have := opUses_snd_ge id v rest (j0 + 1) _ hmem
        omega
      · rw [if_neg ho]
        exact ih (j0 + 1)

/-- Membership in `opUses`: exactly the slots holding `v`. -/
theorem mem_opUses (id : Nat) (v : Val) :
    ∀ (ops : List Val) (j0 : Nat) (p : Nat × Nat),
      p ∈ opUses id v ops j0 ↔ ∃ off, p = (id, j0 + off) ∧ ops[off]? = some v := by
  intro ops
  induction ops with
  | nil =>
      intro j0 p
      simp [opUses]
  | cons o rest ih =>
      intro j0 p
      rw [opUses]
      by_cases ho : (o == v) = true
      · rw [if_pos ho]
        have hov : o = v := by simpa using ho
        constructor
        · intro h
          rcases List.mem_cons.mp h with h1 | h1
          · exact ⟨0, by simpa using h1, by simp [hov]⟩
          · rcases (ih (j0 + 1) p).mp h1 with ⟨off, hp, hoff⟩
            refine ⟨off + 1, ?_, by simpa using hoff⟩
            rw [hp]
            congr 1
            omega
        · rintro ⟨off, hp, hoff⟩
          cases off with
          | zero => exact List.mem_cons.mpr (Or.inl (by simpa using hp))
          | succ off =>
              refine List.mem_cons.mpr
                (Or.inr ((ih (j0 + 1) p).mpr ⟨off, ?_, by simpa using hoff⟩))
              rw [hp]
              congr 1
              omega
      · rw [if_neg ho]
        have hov : ¬ o = v := by simpa using ho
        constructor
        · intro h
          rcases (ih (j0 + 1) p).mp h with ⟨off, hp, hoff⟩
          refine ⟨off + 1, ?_, by simpa using hoff⟩
          rw [hp]
          congr 1
          omega
        · rintro ⟨off, hp, hoff⟩
          cases off with
          | zero =>
              exfalso
              apply hov
              simpa using hoff
          | succ off =>
              refine (ih (j0 + 1) p).mpr ⟨off, ?_, by simpa using hoff⟩
              rw [hp]
              congr 1
              omega

end RedOpt

namespace RedOpt

/-- Overwriting a slot that held `v` with `w ≠ v` removes exactly that
use from the slot's use list. -/
theorem opUses_set (id : Nat) (v w : Val) (hw : w ≠ v) :
    ∀ (ops : List Val) (j0 j : Nat), ops[j]? = some v →
      opUses id v (ops.set j w) j0 =
        (opUses id v ops j0).filter (fun p => p.2 != j0 + j) := by
  intro ops
  induction ops with
  | nil => intro j0 j h; simp at h
  | cons o rest ih =>
      intro j0 j h
      cases j with
      | zero =>
          have hov : o = v := by simpa using h
          have hstep : (o :: rest).set 0 w = w :: rest := rfl
          rw [hstep, opUses, if_neg (by simp [hw]), opUses, if_pos (by simp [hov]),
            List.filter_cons]
          have h0 : (((id, j0) : Nat × Nat).2 != j0 + 0) = false := by simp
          rw [h0]
          simp only [Bool.false_eq_true, if_false]
          symm
          apply List.filter_eq_self.mpr
          intro p hp
          have := opUses_snd_ge id v rest (j0 + 1) p hp
          simp only [bne_iff_ne, ne_eq]
          omega
      | succ j =>
          have hstep : (o :: rest).set (j + 1) w = o :: rest.set j w := rfl
          have hrest : rest[j]? = some v := by simpa using h
          have hih := ih (j0 + 1) j hrest
          rw [show j0 + 1 + j = j0 + (j + 1) from by omega] at hih
          rw [hstep, opUses, opUses]
          by_cases ho : (o == v) = true
          · rw [if_pos ho, if_pos ho, List.filter_cons]
            have hkeep : (((id, j0) : Nat × Nat).2 != j0 + (j + 1)) = true := by
              simp only [bne_iff_ne, ne_eq]
              omega
            rw [hkeep, if_pos rfl, hih]
          · rw [if_neg ho, if_neg ho, hih]

/-- With pairwise distinct ids, `find?` by the id of a member returns
that member. -/
theorem find?_id_of_mem :
    ∀ (l : List Inst), (l.map (fun i => i.id)).Nodup →
      ∀ (inst : Inst), inst ∈ l → l.find? (fun i2 => i2.id == inst.id) = some inst := by
  intro l
  induction l with
  | nil => intro _ inst hm; simp at hm
  | cons a l ih =>
      intro hnd inst hm
      have hmap : (List.map (fun i => i.id) (a :: l)) = a.id :: List.map (fun i => i.id) l := rfl
      rw [hmap] at hnd
      have hc := List.nodup_cons.mp hnd
      rcases List.mem_cons.mp hm with h | h
      · rw [h]
        simp [List.find?_cons]
      · have hne : (a.id == inst.id) = false := by
          simp only [beq_eq_false_iff_ne, ne_eq]
          intro he
          exact hc.1 (he ▸ List.mem_map.mpr ⟨inst, h, rfl⟩)
        rw [List.find?_cons, hne]
        exact ih hc.2 inst h

theorem mem_id_unique (l : List Inst) (hnd : (l.map (fun i => i.id)).Nodup)
    (a b : Inst) (ha : a ∈ l) (hb : b ∈ l) (h : a.id = b.id) : a = b :=
  List.inj_on_of_nodup_map hnd ha hb h

theorem findInst_mem (s : IRState) (i : Nat) (inst : Inst) (h : findInst s i = some inst) :
    inst ∈ s.insts ∧ inst.id = i := by
  refine ⟨List.mem_of_find?_eq_some h, ?_⟩
  have h1 := List.find?_some h
  simpa using h1

theorem mem_usesOf (s : IRState) (v : Val) (p : Nat × Nat) :
    p ∈ usesOf s v ↔ ∃ inst ∈ s.insts, p ∈ instUses inst v := by
  simp [usesOf, List.mem_flatten]

/-- Every use resolves to its user instruction and names a slot that
holds the value. -/
theorem usesOf_resolve (s : IRState) (v : Val) (p : Nat × Nat)
    (hnd : (s.insts.map (fun i => i.id)).Nodup) (hp : p ∈ usesOf s v) :
    ∃ inst, findInst s p.1 = some inst ∧ inst.operands[p.2]? = some v := by
  rcases (mem_usesOf s v p).mp hp with ⟨inst, hmem, hiu⟩
  have hfst : p.1 = inst.id := opUses_fst _ _ _ _ _ hiu
  rcases (mem_opUses inst.id v inst.operands 0 p).mp hiu with ⟨off, hpe, hoff⟩
  have hsnd : p.2 = off := by rw [hpe]; simp
  refine ⟨inst, ?_, by rw [hsnd]; exact hoff⟩
  rw [findInst, hfst]
  exact find?_id_of_mem s.insts hnd inst hmem

/-- A slot holding `v` contributes a use. -/
theorem usesOf_intro (s : IRState) (v : Val) (inst : Inst) (off : Nat)
    (hmem : inst ∈ s.insts) (hoff : inst.operands[off]? = some v) :
    (inst.id, off) ∈ usesOf s v := by
  refine (mem_usesOf s v (inst.id, off)).mpr ⟨inst, hmem, ?_⟩
  exact (mem_opUses inst.id v inst.operands 0 (inst.id, off)).mpr
    ⟨off, by simp, hoff⟩

theorem usesOf_nodup :
    ∀ (l : List Inst), (l.map (fun i => i.id)).Nodup →
      ∀ (v : Val), ((l.map (fun inst => instUses inst v)).flatten).Nodup := by
  intro l
  induction l with
  | nil => intro _ v; simp
  | cons a l ih =>
      intro hnd v
      have hmap : (List.map (fun i => i.id) (a :: l)) = a.id :: List.map (fun i => i.id) l := rfl
      rw [hmap] at hnd
      have hc := List.nodup_cons.mp hnd
      rw [List.map_cons, List.flatten_cons, List.nodup_append]
      refine ⟨opUses_nodup a.id v a.operands 0, ih hc.2 v, ?_⟩
      intro p hp1 hp2
      have h1 : p.1 = a.id := opUses_fst _ _ _ _ _ hp1
      rcases List.mem_flatten.mp hp2 with ⟨sub, hsub, hpsub⟩
      rcases List.mem_map.mp hsub with ⟨b, hb, hbe⟩
      have h2 : p.1 = b.id := opUses_fst _ _ _ _ _ (hbe ▸ hpsub)
      exact hc.1 (by rw [← h1, h2]; exact List.mem_map.mpr ⟨b, hb, rfl⟩)

end RedOpt

namespace RedOpt

/-- Rewriting the slot `(u, j)`, which held `v`, to `w ≠ v` removes
exactly that use of `v`. -/
theorem usesOf_setOperand (s : IRState) (u j : Nat) (v w : Val)
    (hnd : (s.insts.map (fun i => i.id)).Nodup)
    (inst0 : Inst) (hfind : findInst s u = some inst0)
    (hslot : inst0.operands[j]? = some v) (hw : w ≠ v) :
    usesOf (setOperand s u j w) v = (usesOf s v).filter (fun p => p != (u, j)) := by
  have hmem0 : inst0 ∈ s.insts := (findInst_mem s u inst0 hfind).1
  have hid0 : inst0.id = u := (findInst_mem s u inst0 hfind).2
  simp only [usesOf, setOperand]
  rw [List.filter_flatten]
  simp only [List.map_map]
  congr 1
  apply List.map_congr_left
  intro b hb
  simp only [Function.comp]
  by_cases hbu : b.id = u
  · have hbeq : b = inst0 := mem_id_unique s.insts hnd b inst0 hb hmem0 (by rw [hbu, hid0])
    rw [if_pos hbu]
    subst hbeq
    show opUses (setOperandInst b j w).id v (setOperandInst b j w).operands 0 = _
    rw [show (setOperandInst b j w).id = b.id from rfl,
      show (setOperandInst b j w).operands = b.operands.set j w from rfl]
    rw [opUses_set b.id v w hw b.operands 0 j hslot]
    apply List.filter_congr
    intro p hp
    have hfst := opUses_fst _ _ _ _ _ hp
    rw [hid0] at hfst
    cases p with
    | mk p1 p2 =>
        simp only at hfst
        subst hfst
        by_cases h2 : p2 = j
        · subst h2
          simp
        · have hL : (p2 != j) = true := by simpa using h2
          have hR : ((p1, p2) != (p1, j)) = true := by
            simp only [bne_iff_ne, ne_eq, Prod.mk.injEq, not_and]
            intro _
            exact h2
          simp only [Nat.zero_add]
          show (p2 != j) = ((p1, p2) != (p1, j))
          rw [hL, hR]
  · rw [if_neg hbu]
    symm
    apply List.filter_eq_self.mpr
    intro p hp
    have hfst := opUses_fst _ _ _ _ _ hp
    simp only [bne_iff_ne, ne_eq, decide_eq_true_eq]
    intro he
    exact hbu (by rw [← hfst, he])

/-- Id list preserved by any id-preserving instruction map. -/
theorem map_ids_of_id_preserving (g : Inst → Inst) (hg : ∀ i, (g i).id = i.id)
    (l : List Inst) :
    (l.map g).map (fun i => i.id) = l.map (fun i => i.id) := by
  rw [List.map_map]
  apply List.map_congr_left
  intro b _
  simp [Function.comp, hg]

theorem setOperand_nodup (s : IRState) (u j : Nat) (v : Val)
    (hnd : (s.insts.map (fun i => i.id)).Nodup) :
    (((setOperand s u j v).insts).map (fun i => i.id)).Nodup := by
  have hg : ∀ i : Inst,
      ((fun inst => if inst.id = u then setOperandInst inst j v else inst) i).id = i.id := by
    intro i
    by_cases h : i.id = u <;> simp [h, setOperandInst_id]
  simp only [setOperand]
  rw [map_ids_of_id_preserving _ hg]
  exact hnd

theorem findInst_replaceValInsts (s : IRState) (tr : Bool) (old new : Val) (i : Nat) :
    findInst (replaceValInsts s tr old new) i =
      (findInst s i).map (fun inst =>
        if inst.inRegion == tr then
          { inst with operands := inst.operands.map (substVal old new) }
        else inst) := by
  apply find?_map_of_id
  intro inst
  by_cases h : (inst.inRegion == tr) = true <;> simp [h]

/-- When no use of `old` sits at an instruction on the targeted region
side, the declarative replacement does nothing. -/
theorem replaceValInsts_eq_self (s : IRState) (tr : Bool) (old new : Val)
    (hnd : (s.insts.map (fun i => i.id)).Nodup)
    (h : ∀ p ∈ usesOf s old, useInRegion s p = !tr) :
    replaceValInsts s tr old new = s := by
  have hinsts : s.insts.map (fun inst =>
      if inst.inRegion == tr then
        { inst with operands := inst.operands.map (substVal old new) }
      else inst) = s.insts := by
    conv_rhs => rw [← List.map_id s.insts]
    apply List.map_congr_left
    intro b hb
    by_cases hreg : (b.inRegion == tr) = true
    · rw [if_pos hreg]
      have hops : b.operands.map (substVal old new) = b.operands := by
        conv_rhs => rw [← List.map_id b.operands]
        apply List.map_congr_left
        intro o ho
        rcases List.mem_iff_getElem?.mp ho with ⟨off, hoff⟩
        by_cases hov : o = old
        · exfalso
          have hu : (b.id, off) ∈ usesOf s old :=
            usesOf_intro s old b off hb (by rw [hoff, hov])
          have hr := h (b.id, off) hu
          rw [useInRegion] at hr
          rw [show ((b.id, off) : Nat × Nat).1 = b.id from rfl] at hr
          rw [findInst, find?_id_of_mem s.insts hnd b hb] at hr
          have hr2 : b.inRegion = !tr := hr
          rw [hr2] at hreg
          cases tr <;> simp at hreg
        · simp [substVal, hov]
      rw [hops]
      rfl
    · rw [if_neg hreg]
      rfl
  rw [replaceValInsts, hinsts]

/-- Setting a slot that held `old` to `new` is absorbed by the
declarative replacement. -/
theorem map_subst_set (ops : List Val) (j : Nat) (old new : Val)
    (hslot : ops[j]? = some old) :
    (ops.set j new).map (substVal old new) = ops.map (substVal old new) := by
  apply List.ext_getElem?
  intro k
  rw [List.getElem?_map, List.getElem?_map, List.getElem?_set]
  by_cases hk : j = k
  · subst hk
    have hj : j < ops.length := by
      rw [List.getElem?_eq_some_iff] at hslot
      exact hslot.1
    rw [if_pos rfl, if_pos hj, hslot]
    show some (substVal old new new) = some (substVal old new old)
    congr 1
    by_cases hno : new = old <;> simp [substVal, hno]
  · rw [if_neg hk]

theorem replaceValInsts_setOperand (s : IRState) (tr : Bool) (old new : Val)
    (u j : Nat) (inst0 : Inst)
    (hnd : (s.insts.map (fun i => i.id)).Nodup)
    (hfind : findInst s u = some inst0) (hreg : (inst0.inRegion == tr) = true)
    (hslot : inst0.operands[j]? = some old) :
    replaceValInsts (setOperand s u j new) tr old new =
      replaceValInsts s tr old new := by
  have hmem0 : inst0 ∈ s.insts := (findInst_mem s u inst0 hfind).1
  have hid0 : inst0.id = u := (findInst_mem s u inst0 hfind).2
  simp only [replaceValInsts, setOperand, List.map_map]
  congr 1
  apply List.map_congr_left
  intro b hb
  simp only [Function.comp]
  by_cases hbu : b.id = u
  · have hbeq : b = inst0 := mem_id_unique s.insts hnd b inst0 hb hmem0 (by rw [hbu, hid0])
    subst hbeq
    rw [if_pos hbu]
    rw [show (setOperandInst b j new).inRegion = b.inRegion from rfl]
    rw [if_pos hreg, if_pos hreg]
    rw [show (setOperandInst b j new).operands = b.operands.set j new from rfl]
    rw [map_subst_set b.operands j old new hslot]
    rfl
  · rw [if_neg hbu]

theorem useInRegion_replaceValInsts (s : IRState) (tr : Bool) (old new : Val)
    (p : Nat × Nat) :
    useInRegion (replaceValInsts s tr old new) p = useInRegion s p := by
  rw [useInRegion, useInRegion, findInst_replaceValInsts]
  cases h : findInst s p.1 with
  | none => rfl
  | some inst =>
      show (if (inst.inRegion == tr) = true then
          { inst with operands := inst.operands.map (substVal old new) }
        else inst).inRegion = inst.inRegion
      by_cases h2 : (inst.inRegion == tr) = true
      · rw [if_pos h2]
      · rw [if_neg h2]

end RedOpt

namespace RedOpt

/-- The first rewrite loop of `optimize`, run on the snapshot of the
phi's use list, equals the declarative in-region replacement: every
in-region use is redirected to the neutral element and out-of-region
uses are preserved. -/
theorem replacePhiUses_spec (phiRef neutral : Val) (hneq : neutral ≠ phiRef) :
    ∀ (L : List (Nat × Nat)) (s : IRState),
      (s.insts.map (fun i => i.id)).Nodup →
      L.Nodup →
      (∀ p ∈ L, ∃ inst, findInst s p.1 = some inst ∧ inst.operands[p.2]? = some phiRef) →
      (∀ p ∈ usesOf s phiRef, useInRegion s p = true → p ∈ L) →
      replacePhiUses L neutral s = replaceValInsts s true phiRef neutral := by
  intro L
  induction L with
  | nil =>
      intro s hnd _ _ hcover
      rw [replacePhiUses]
      symm
      apply replaceValInsts_eq_self s true phiRef neutral hnd
      intro p hp
      cases hreg : useInRegion s p with
      | false => rfl
      | true => exact absurd (hcover p hp hreg) (List.not_mem_nil p)
  | cons q rest ih =>
      intro s hnd hLnd hres hcover
      obtain ⟨u, j⟩ := q
      rcases hres (u, j) (List.mem_cons_self _ _) with ⟨inst, hfind, hslot⟩
      rw [replacePhiUses, hfind]
      show (if inst.inRegion = true then replacePhiUses rest neutral (setOperand s u j neutral)
        else replacePhiUses rest neutral s) = replaceValInsts s true phiRef neutral
      have hLc := List.nodup_cons.mp hLnd
      by_cases hreg : inst.inRegion = true
      · rw [if_pos hreg]
        have hnd1 := setOperand_nodup s u j neutral hnd
        have key := usesOf_setOperand s u j phiRef neutral hnd inst hfind hslot hneq
        have hres1 : ∀ p ∈ rest, ∃ inst2,
            findInst (setOperand s u j neutral) p.1 = some inst2 ∧
            inst2.operands[p.2]? = some phiRef := by
          intro p hp
          rcases hres p (List.mem_cons_of_mem _ hp) with ⟨inst2, hfind2, hslot2⟩
          rw [findInst_setOperand, hfind2]
          by_cases hiu : inst2.id = u
          · have he : inst2 = inst := mem_id_unique s.insts hnd inst2 inst
              (findInst_mem s p.1 inst2 hfind2).1 (findInst_mem s u inst hfind).1
              (by rw [hiu, (findInst_mem s u inst hfind).2])
            have hp1 : p.1 = u := by
              rw [← (findInst_mem s p.1 inst2 hfind2).2, hiu]
            have hp2 : p.2 ≠ j := by
              intro hj
              apply hLc.1
              have hpe : p = (u, j) := by
                cases p with
                | mk a b =>
                    simp only at hp1 hj
                    rw [hp1, hj]
              rw [← hpe]
              exact hp
            refine ⟨setOperandInst inst2 j neutral, by simp [hiu], ?_⟩
            rw [show (setOperandInst inst2 j neutral).operands =
                inst2.operands.set j neutral from rfl]
            rw [List.getElem?_set, if_neg (fun hh => hp2 hh.symm)]
            exact hslot2
          · exact ⟨inst2, by simp [hiu], hslot2⟩
        have hcover1 : ∀ p ∈ usesOf (setOperand s u j neutral) phiRef,
            useInRegion (setOperand s u j neutral) p = true → p ∈ rest := by
          intro p hp hpreg
          rw [key] at hp
          have hmem := List.mem_filter.mp hp
          have hpneq : p ≠ (u, j) := by simpa using hmem.2
          have hin := hcover p hmem.1
            (by rw [← useInRegion_setOperand s u j neutral p]; exact hpreg)
          rcases List.mem_cons.mp hin with h1 | h1
          · exact absurd h1 hpneq
          · exact h1
        rw [ih (setOperand s u j neutral) hnd1 hLc.2 hres1 hcover1]
        exact replaceValInsts_setOperand s true phiRef neutral u j inst hnd hfind
          (by simp [hreg]) hslot
      · rw [if_neg hreg]
        apply ih s hnd hLc.2
        · intro p hp
          exact hres p (List.mem_cons_of_mem _ hp)
        · intro p hp hpreg
          rcases List.mem_cons.mp (hcover p hp hpreg) with h1 | h1
          · exfalso
            rw [h1, useInRegion] at hpreg
            rw [show ((u, j) : Nat × Nat).1 = u from rfl, hfind] at hpreg
            exact hreg hpreg
          · exact h1

end RedOpt

namespace RedOpt

/-- The second rewrite loop of `optimize`: given fuel of at least
`(number of out-of-region uses) * (T + 1) + (scan length) + 1`, the
restart-on-rewrite scan of the latch's use list terminates and equals
the declarative out-of-region replacement.  Each rewrite removes one
out-of-region use — the termination measure — while in-region uses
are only skipped over. -/
theorem redirectUses_spec (latchId foldId : Nat) (hne : foldId ≠ latchId) (T : Nat) :
    ∀ (fuel : Nat) (s : IRState) (l pre : List (Nat × Nat)),
      (s.insts.map (fun i => i.id)).Nodup →
      usesOf s (Val.instRef latchId) = pre ++ l →
      (∀ p ∈ pre, useInRegion s p = true) →
      (usesOf s (Val.instRef latchId)).length ≤ T →
      ((usesOf s (Val.instRef latchId)).filter (fun p => !useInRegion s p)).length * (T + 1)
          + l.length + 1 ≤ fuel →
      redirectUses latchId foldId fuel l s =
        some (replaceValInsts s false (Val.instRef latchId) (Val.instRef foldId)) := by
  intro fuel
  induction fuel with
  | zero =>
      intro s l pre _ _ _ _ hfuel
      omega
  | succ fuel ih =>
      intro s l pre hnd hsplit hpre hT hfuel
      cases l with
      | nil =>
          rw [redirectUses]
          congr 1
          symm
          apply replaceValInsts_eq_self s false _ _ hnd
          intro p hp
          have hpp : p ∈ pre := by
            rw [hsplit] at hp
            simpa using hp
          simp [hpre p hpp]
      | cons q rest =>
          obtain ⟨u, j⟩ := q
          have hq : (u, j) ∈ usesOf s (Val.instRef latchId) := by
            rw [hsplit]
            exact List.mem_append_right pre (List.mem_cons_self _ _)
          rcases usesOf_resolve s _ (u, j) hnd hq with ⟨inst, hfind0, hslot⟩
          have hfind : findInst s u = some inst := hfind0
          rw [redirectUses, hfind]
          show (if inst.inRegion = true then
              redirectUses latchId foldId fuel rest s
            else
              redirectUses latchId foldId fuel
                (usesOf (setOperand s u j (Val.instRef foldId)) (Val.instRef latchId))
                (setOperand s u j (Val.instRef foldId))) = _
          by_cases hreg : inst.inRegion = true
          · rw [if_pos hreg]
            apply ih s rest (pre ++ [(u, j)]) hnd (by rw [hsplit]; simp) ?_ hT (by
              simp only [List.length_cons] at hfuel
              omega)
            intro p hp
            rcases List.mem_append.mp hp with h1 | h1
            · exact hpre p h1
            · have hpe : p = (u, j) := by simpa using h1
              subst hpe
              rw [useInRegion, show ((u, j) : Nat × Nat).1 = u from rfl, hfind]
              exact hreg
          · rw [if_neg hreg]
            have hUreg : useInRegion s (u, j) = false := by
              rw [useInRegion, show ((u, j) : Nat × Nat).1 = u from rfl, hfind]
              exact Bool.eq_false_iff.mpr hreg
            have hval : (Val.instRef foldId : Val) ≠ Val.instRef latchId := by
              intro hh
              injection hh with h2
              exact hne h2
            have key := usesOf_setOperand s u j (Val.instRef latchId) (Val.instRef foldId)
              hnd inst hfind hslot hval
            have hnd1 := setOperand_nodup s u j (Val.instRef foldId) hnd
            have hcong : (usesOf (setOperand s u j (Val.instRef foldId))
                  (Val.instRef latchId)).filter
                (fun p => !useInRegion (setOperand s u j (Val.instRef foldId)) p) =
                (usesOf (setOperand s u j (Val.instRef foldId)) (Val.instRef latchId)).filter
                  (fun p => !useInRegion s p) := by
              apply List.filter_congr
              intro p _
              rw [useInRegion_setOperand]
            have hstep : ((usesOf s (Val.instRef latchId)).filter
                  (fun p => p != (u, j))).filter (fun p => !useInRegion s p) =
                ((usesOf s (Val.instRef latchId)).filter (fun p => !useInRegion s p)).filter
                  (fun p => p != (u, j)) := by
              rw [List.filter_filter, List.filter_filter]
              apply List.filter_congr
              intro p _
              rw [Bool.and_comm]
            have hocdec :
                ((usesOf (setOperand s u j (Val.instRef foldId)) (Val.instRef latchId)).filter
                  (fun p => !useInRegion (setOperand s u j (Val.instRef foldId)) p)).length <
                ((usesOf s (Val.instRef latchId)).filter
                  (fun p => !useInRegion s p)).length := by
              rw [hcong, key, hstep]
              refine List.length_filter_lt_length_iff_exists.mpr ⟨(u, j), ?_, ?_⟩
              · exact List.mem_filter.mpr ⟨hq, by rw [hUreg]; rfl⟩
              · simp
            have hlen1 : (usesOf (setOperand s u j (Val.instRef foldId))
                (Val.instRef latchId)).length ≤ T := by
              rw [key]
              exact le_trans (List.length_filter_le _ _) hT
            have hmul : (((usesOf (setOperand s u j (Val.instRef foldId))
                  (Val.instRef latchId)).filter
                  (fun p => !useInRegion (setOperand s u j (Val.instRef foldId)) p)).length + 1)
                  * (T + 1) ≤
                ((usesOf s (Val.instRef latchId)).filter
                  (fun p => !useInRegion s p)).length * (T + 1) :=
              Nat.mul_le_mul_right _ (by omega)
            have hexp : (((usesOf (setOperand s u j (Val.instRef foldId))
                  (Val.instRef latchId)).filter
                  (fun p => !useInRegion (setOperand s u j (Val.instRef foldId)) p)).length + 1)
                  * (T + 1) =
                ((usesOf (setOperand s u j (Val.instRef foldId)) (Val.instRef latchId)).filter
                  (fun p => !useInRegion (setOperand s u j (Val.instRef foldId)) p)).length
                  * (T + 1) + (T + 1) := by ring
            rw [ih (setOperand s u j (Val.instRef foldId))
              (usesOf (setOperand s u j (Val.instRef foldId)) (Val.instRef latchId)) []
              hnd1 (by simp) (by simp) hlen1 (by
                simp only [List.length_cons] at hfuel
                omega)]
            congr 1
            exact replaceValInsts_setOperand s false (Val.instRef latchId) (Val.instRef foldId)
              u j inst hnd hfind (by simp [Bool.eq_false_iff.mpr hreg]) hslot

end RedOpt

namespace RedOpt

/-- C10: the loop in `ReductionOptimization::optimize` that redirects
external users of the latch value — which resets its iterator to the
beginning of the use list after every rewrite — terminates for every
finite use list: with the fuel `optimize` supplies it never runs out,
because each rewrite removes one outside-region use of the latch
instruction (the termination measure) and in-region uses are only
skipped over; the completed loop redirects exactly the outside-region
uses to the fold. -/
theorem redirectUses_fuel (s : IRState) (latchId foldId : Nat)
    (hnd : (s.insts.map (fun i => i.id)).Nodup) (hne : foldId ≠ latchId) :
    redirectUses latchId foldId
        (((usesOf s (Val.instRef latchId)).length + 1) *
          ((usesOf s (Val.instRef latchId)).length + 1))
        (usesOf s (Val.instRef latchId)) s =
      some (replaceValInsts s false (Val.instRef latchId) (Val.instRef foldId)) := by
  apply redirectUses_spec latchId foldId hne ((usesOf s (Val.instRef latchId)).length) _ s
    (usesOf s (Val.instRef latchId)) [] hnd (by simp) (by simp) (le_refl _)
  have hoc : ((usesOf s (Val.instRef latchId)).filter (fun p => !useInRegion s p)).length ≤
      (usesOf s (Val.instRef latchId)).length := List.length_filter_le _ _
  have hmul : ((usesOf s (Val.instRef latchId)).filter (fun p => !useInRegion s p)).length *
      ((usesOf s (Val.instRef latchId)).length + 1) ≤
      (usesOf s (Val.instRef latchId)).length *
        ((usesOf s (Val.instRef latchId)).length + 1) :=
    Nat.mul_le_mul_right _ hoc
  have hexp : ((usesOf s (Val.instRef latchId)).length + 1) *
      ((usesOf s (Val.instRef latchId)).length + 1) =
      (usesOf s (Val.instRef latchId)).length *
        ((usesOf s (Val.instRef latchId)).length + 1) +
      ((usesOf s (Val.instRef latchId)).length + 1) := by ring
  omega

/-- Concrete instance of `redirectUses_fuel`: the redirect loop on
`wState2` (whose out-of-region instruction 3 uses the latch twice)
completes within the supplied fuel. -/
theorem redirectUses_fuel_witness :
    redirectUses 1 4
        (((usesOf wState2 (Val.instRef 1)).length + 1) *
          ((usesOf wState2 (Val.instRef 1)).length + 1))
        (usesOf wState2 (Val.instRef 1)) wState2 =
      some (replaceValInsts wState2 false (Val.instRef 1) (Val.instRef 4)) :=
  redirectUses_fuel wState2 1 4 (by decide) (by decide)

theorem freshId_gt :
    ∀ (l : List Inst) (inst : Inst), inst ∈ l →
      inst.id < l.foldr (fun inst m => max (inst.id + 1) m) 0 := by
  intro l
  induction l with
  | nil =>
      intro inst h
      simp at h
  | cons a l ih =>
      intro inst h
      rcases List.mem_cons.mp h with h1 | h1
      · subst h1
        exact lt_of_lt_of_le (Nat.lt_succ_self _) (le_max_left _ _)
      · exact lt_of_lt_of_le (ih inst h1) (le_max_right _ _)

theorem freshId_gt_mem (s : IRState) (inst : Inst) (h : inst ∈ s.insts) :
    inst.id < freshId s :=
  freshId_gt s.insts inst h

/-- `freshId` depends only on the id list. -/
theorem freshId_eq_of_ids_eq (s t : IRState)
    (h : s.insts.map (fun i => i.id) = t.insts.map (fun i => i.id)) :
    freshId s = freshId t := by
  have key : ∀ (l : List Inst),
      l.foldr (fun inst m => max (inst.id + 1) m) 0 =
        (l.map (fun i => i.id)).foldr (fun a m => max (a + 1) m) 0 := by
    intro l
    induction l with
    | nil => rfl
    | cons a l ih => simp [List.foldr, ih]
  rw [freshId, freshId, key, key, h]

/-- Generic `find?` decomposition. -/
theorem find?_split {α : Type} (l : List α) (p : α → Bool) (a : α) (h : l.find? p = some a) :
    ∃ l1 l2, l = l1 ++ a :: l2 ∧ ∀ b ∈ l1, p b = false := by
  induction l with
  | nil => simp at h
  | cons x l ih =>
      rw [List.find?_cons] at h
      cases hx : p x with
      | true =>
          rw [hx] at h
          simp at h
          exact ⟨[], l, by simp [h], by simp⟩
      | false =>
          rw [hx] at h
          simp only at h
          rcases ih h with ⟨l1, l2, he, hall⟩
          refine ⟨x :: l1, l2, by simp [he], ?_⟩
          intro b hb
          rcases List.mem_cons.mp hb with hb | hb
          · rw [hb]
            exact hx
          · exact hall b hb

theorem mem_insertAfterId (t : Nat) (ni : Inst) :
    ∀ (l : List Inst) (b : Inst), b ∈ insertAfterId l t ni → b ∈ l ∨ b = ni := by
  intro l
  induction l with
  | nil =>
      intro b h
      simp [insertAfterId] at h
  | cons a l ih =>
      intro b h
      rw [insertAfterId] at h
      by_cases ha : a.id = t
      · rw [if_pos ha] at h
        rcases List.mem_cons.mp h with h1 | h1
        · exact Or.inl (List.mem_cons.mpr (Or.inl h1))
        · rcases List.mem_cons.mp h1 with h2 | h2
          · exact Or.inr h2
          · exact Or.inl (List.mem_cons.mpr (Or.inr h2))
      · rw [if_neg ha] at h
        rcases List.mem_cons.mp h with h1 | h1
        · exact Or.inl (List.mem_cons.mpr (Or.inl h1))
        · rcases ih b h1 with h2 | h2
          · exact Or.inl (List.mem_cons.mpr (Or.inr h2))
          · exact Or.inr h2

theorem insertAfterId_ids_nodup (t : Nat) (ni : Inst) :
    ∀ (l : List Inst), (l.map (fun i => i.id)).Nodup →
      (∀ b ∈ l, b.id ≠ ni.id) →
      ((insertAfterId l t ni).map (fun i => i.id)).Nodup := by
  intro l
  induction l with
  | nil =>
      intro _ _
      simp [insertAfterId]
  | cons a l ih =>
      intro hnd hfresh
      have hmap : (List.map (fun i => i.id) (a :: l)) = a.id :: List.map (fun i => i.id) l := rfl
      rw [hmap] at hnd
      have hc := List.nodup_cons.mp hnd
      rw [insertAfterId]
      by_cases ha : a.id = t
      · rw [if_pos ha]
        rw [show List.map (fun i => i.id) (a :: ni :: l) =
          a.id :: ni.id :: List.map (fun i => i.id) l from rfl]
        refine List.nodup_cons.mpr ⟨?_, List.nodup_cons.mpr ⟨?_, hc.2⟩⟩
        · intro hmem
          rcases List.mem_cons.mp hmem with h1 | h1
          · exact hfresh a (List.mem_cons_self _ _) h1
          · exact hc.1 h1
        · intro hmem
          rcases List.mem_map.mp hmem with ⟨b, hb, hbe⟩
          exact hfresh b (List.mem_cons_of_mem _ hb) hbe
      · rw [if_neg ha]
        rw [show List.map (fun i => i.id) (a :: insertAfterId l t ni) =
          a.id :: List.map (fun i => i.id) (insertAfterId l t ni) from rfl]
        refine List.nodup_cons.mpr ⟨?_, ih hc.2 (fun b hb => hfresh b (List.mem_cons_of_mem _ hb))⟩
        intro hmem
        rcases List.mem_map.mp hmem with ⟨b, hb, hbe⟩
        rcases mem_insertAfterId t ni l b hb with h1 | h1
        · exact hc.1 (hbe ▸ List.mem_map.mpr ⟨b, h1, rfl⟩)
        · apply hfresh a (List.mem_cons_self _ _)
          rw [← hbe, h1]

/-- Inserting an instruction with a different id does not change id
lookups. -/
theorem find?_insertAfterId (t : Nat) (ni : Inst) (i : Nat) (hni : (ni.id == i) = false) :
    ∀ (l : List Inst),
      (insertAfterId l t ni).find? (fun inst => inst.id == i) =
        l.find? (fun inst => inst.id == i) := by
  intro l
  induction l with
  | nil => rfl
  | cons a l ih =>
      rw [insertAfterId]
      by_cases ha : a.id = t
      · rw [if_pos ha]
        cases hai : (a.id == i) with
        | true => simp [List.find?_cons, hai]
        | false => simp [List.find?_cons, hai, hni]
      · rw [if_neg ha]
        cases hai : (a.id == i) with
        | true => simp [List.find?_cons, hai]
        | false => simp [List.find?_cons, hai, ih]

end RedOpt

namespace RedOpt

theorem replaceValInsts_ids (s : IRState) (tr : Bool) (old new : Val) :
    (replaceValInsts s tr old new).insts.map (fun i => i.id) =
      s.insts.map (fun i => i.id) := by
  apply map_ids_of_id_preserving
  intro i
  by_cases h : (i.inRegion == tr) = true <;> simp [h]

theorem replaceValInsts_nodup (s : IRState) (tr : Bool) (old new : Val)
    (hnd : (s.insts.map (fun i => i.id)).Nodup) :
    ((replaceValInsts s tr old new).insts.map (fun i => i.id)).Nodup := by
  rw [replaceValInsts_ids]
  exact hnd

/-- Shared derivation for C1 and C3: under the well-formedness
conditions certified by the reduction analysis, the iterative
`optimize` computes exactly the declarative `optimizeResult`. -/
theorem optimize_applied_eq (s : IRState) (phiId : Nat) (k : RedKind)
    (phiInst latchInst : Inst) (latchId : Nat)
    (hnd : (s.insts.map (fun i => i.id)).Nodup)
    (hphi : findInst s phiId = some phiInst)
    (huses : ¬ (usesOf s (Val.instRef phiId)).length = 1)
    (hlatchIdx : phiInst.operands[chooseLatchIdx s phiInst]? = some (Val.instRef latchId))
    (hlatch : findInst s latchId = some latchInst)
    (hlatchRegion : latchInst.inRegion = true) :
    optimize s phiId k =
      some (true, optimizeResult s phiId k latchId (chooseLatchIdx s phiInst)) := by
  have hneq : (Val.constVal (GetNeutralElement k)) ≠ Val.instRef phiId := by simp
  have hs1 : replacePhiUses (usesOf s (Val.instRef phiId))
      (Val.constVal (GetNeutralElement k)) s =
      replaceValInsts s true (Val.instRef phiId) (Val.constVal (GetNeutralElement k)) :=
    replacePhiUses_spec _ _ hneq _ s hnd (usesOf_nodup s.insts hnd _)
      (fun p hp => usesOf_resolve s _ p hnd hp) (fun p hp _ => hp)
  have hfid : freshId (replaceValInsts s true (Val.instRef phiId)
      (Val.constVal (GetNeutralElement k))) = freshId s :=
    freshId_eq_of_ids_eq _ _ (replaceValInsts_ids s true _ _)
  have hfoldne : freshId s ≠ latchId := by
    have h1 := freshId_gt_mem s latchInst (findInst_mem s latchId latchInst hlatch).1
    rw [(findInst_mem s latchId latchInst hlatch).2] at h1
    omega
  simp only [optimize, optimizeResult, if_neg huses, hphi, hlatchIdx, hlatch,
    hlatchRegion, hs1, hfid]
  set s3 : IRState :=
    { insts := insertAfterId (replaceValInsts s true (Val.instRef phiId)
        (Val.constVal (GetNeutralElement k))).insts latchId
        (CreateReductInst k phiId latchId (freshId s) true)
      shapes := fun v => if v = freshId s then s.shapes phiId
        else (replaceValInsts s true (Val.instRef phiId)
          (Val.constVal (GetNeutralElement k))).shapes v
      entry := (replaceValInsts s true (Val.instRef phiId)
        (Val.constVal (GetNeutralElement k))).entry } with hs3def
  have hnd3 : (s3.insts.map (fun i => i.id)).Nodup := by
    rw [hs3def]
    show ((insertAfterId (replaceValInsts s true (Val.instRef phiId)
        (Val.constVal (GetNeutralElement k))).insts latchId
        (CreateReductInst k phiId latchId (freshId s) true)).map (fun i => i.id)).Nodup
    apply insertAfterId_ids_nodup
    · exact replaceValInsts_nodup s true _ _ hnd
    · intro b hb
      show b.id ≠ freshId s
      have hlt := freshId_gt_mem (replaceValInsts s true (Val.instRef phiId)
        (Val.constVal (GetNeutralElement k))) b hb
      rw [hfid] at hlt
      omega
  rw [redirectUses_fuel s3 latchId (freshId s) hnd3 hfoldne]

end RedOpt

namespace RedOpt

/-- C3: when `ReductionOptimization::optimize` applies it computes
exactly `optimizeResult`: (a) every use of the header phi inside the
region is redirected to the neutral element of the reduction's
operation while uses outside the region are preserved, (b) a new fold
instruction combining the phi with the latch value under the
reduction's operation is inserted immediately after the latch, (c)
every use of the old latch value outside the region is redirected to
the fold result while uses inside the region keep referencing the raw
latch value, and (d) the phi's latch-incoming operand is set to the
fold result. -/
theorem optimize_applied_characterization (s : IRState) (phiId : Nat) (k : RedKind)
    (phiInst latchInst : Inst) (latchId : Nat)
    (hnd : (s.insts.map (fun i => i.id)).Nodup)
    (hphi : findInst s phiId = some phiInst)
    (huses : ¬ (usesOf s (Val.instRef phiId)).length = 1)
    (hlatchIdx : phiInst.operands[chooseLatchIdx s phiInst]? = some (Val.instRef latchId))
    (hlatch : findInst s latchId = some latchInst)
    (hlatchRegion : latchInst.inRegion = true) :
    optimize s phiId k =
      some (true, optimizeResult s phiId k latchId (chooseLatchIdx s phiInst)) :=
  optimize_applied_eq s phiId k phiInst latchInst latchId hnd hphi huses hlatchIdx
    hlatch hlatchRegion

/-- Concrete instance of `optimize_applied_characterization` on
`wState2`: its add-reduction phi (two uses) is rewritten to the
declarative result. -/
theorem optimize_applied_characterization_witness :
    optimize wState2 0 RedKind.add =
      some (true, optimizeResult wState2 0 RedKind.add 1 (chooseLatchIdx wState2 wPhi1)) :=
  optimize_applied_characterization wState2 0 RedKind.add wPhi1 wLatch1 1
    (by decide) rfl (by decide) rfl rfl rfl

end RedOpt

namespace RedOpt

theorem setOperand_ids (s : IRState) (u j : Nat) (v : Val) :
    (setOperand s u j v).insts.map (fun i => i.id) = s.insts.map (fun i => i.id) := by
  apply map_ids_of_id_preserving
  intro i
  by_cases h : i.id = u <;> simp [h, setOperandInst_id]

theorem setOperand_entry (s : IRState) (u j : Nat) (v : Val) :
    (setOperand s u j v).entry = s.entry := rfl

theorem phiTagAt_setOperand (s : IRState) (u j : Nat) (v : Val) (i : Nat) :
    phiTagAt (setOperand s u j v) i = phiTagAt s i := by
  rw [phiTagAt, phiTagAt, findInst_setOperand]
  cases h : findInst s i with
  | none => rfl
  | some inst =>
      show some (if inst.id = u then setOperandInst inst j v else inst).kind.isPhi =
        some inst.kind.isPhi
      by_cases h2 : inst.id = u
      · rw [if_pos h2]
        rfl
      · rw [if_neg h2]

/-- The first rewrite loop preserves the id list, the entry block, and
the phi-ness of every id. -/
theorem replacePhiUses_preserves (neutral : Val) :
    ∀ (L : List (Nat × Nat)) (s : IRState),
      (replacePhiUses L neutral s).insts.map (fun i => i.id) =
          s.insts.map (fun i => i.id)
        ∧ (replacePhiUses L neutral s).entry = s.entry
        ∧ ∀ i, phiTagAt (replacePhiUses L neutral s) i = phiTagAt s i := by
  intro L
  induction L with
  | nil =>
      intro s
      rw [replacePhiUses]
      exact ⟨rfl, rfl, fun i => rfl⟩
  | cons q rest ih =>
      intro s
      obtain ⟨u, j⟩ := q
      have hsplit : replacePhiUses ((u, j) :: rest) neutral s = replacePhiUses rest neutral s
          ∨ replacePhiUses ((u, j) :: rest) neutral s =
            replacePhiUses rest neutral (setOperand s u j neutral) := by
        rw [replacePhiUses]
        cases findInst s u with
        | none => exact Or.inl rfl
        | some ui =>
            by_cases hreg : ui.inRegion = true
            · refine Or.inr ?_
              show (if ui.inRegion = true then
                  replacePhiUses rest neutral (setOperand s u j neutral)
                else replacePhiUses rest neutral s) = _
              rw [if_pos hreg]
            · refine Or.inl ?_
              show (if ui.inRegion = true then
                  replacePhiUses rest neutral (setOperand s u j neutral)
                else replacePhiUses rest neutral s) = _
              rw [if_neg hreg]
      rcases hsplit with he | he
      · rw [he]
        exact ih s
      · rw [he]
        rcases ih (setOperand s u j neutral) with ⟨h1, h2, h3⟩
        exact ⟨by rw [h1, setOperand_ids], by rw [h2, setOperand_entry],
          fun i => by rw [h3, phiTagAt_setOperand]⟩

/-- The second rewrite loop preserves the id list, the entry block,
and the phi-ness of every id. -/
theorem redirectUses_preserves (latchId foldId : Nat) :
    ∀ (fuel : Nat) (l : List (Nat × Nat)) (s s2 : IRState),
      redirectUses latchId foldId fuel l s = some s2 →
      s2.insts.map (fun i => i.id) = s.insts.map (fun i => i.id)
        ∧ s2.entry = s.entry
        ∧ ∀ i, phiTagAt s2 i = phiTagAt s i := by
  intro fuel
  induction fuel with
  | zero =>
      intro l s s2 h
      exact Option.noConfusion h
  | succ fuel ih =>
      intro l s s2 h
      cases l with
      | nil =>
          rw [redirectUses] at h
          have h2 : s = s2 := Option.some.inj h
          subst h2
          exact ⟨rfl, rfl, fun i => rfl⟩
      | cons q rest =>
          obtain ⟨u, j⟩ := q
          rw [redirectUses] at h
          cases hf : findInst s u with
          | none =>
              rw [hf] at h
              exact Option.noConfusion h
          | some ui =>
              rw [hf] at h
              have h2 : (if ui.inRegion = true then
                  redirectUses latchId foldId fuel rest s
                else
                  redirectUses latchId foldId fuel
                    (usesOf (setOperand s u j (Val.instRef foldId)) (Val.instRef latchId))
                    (setOperand s u j (Val.instRef foldId))) = some s2 := h
              by_cases hreg : ui.inRegion = true
              · rw [if_pos hreg] at h2
                exact ih rest s s2 h2
              · rw [if_neg hreg] at h2
                rcases ih _ _ s2 h2 with ⟨h3, h4, h5⟩
                refine ⟨?_, ?_, ?_⟩
                · rw [h3, setOperand_ids]
                · rw [h4, setOperand_entry]
                · intro i
                  rw [h5, phiTagAt_setOperand]

end RedOpt

namespace RedOpt

theorem phiTagAt_mem (s : IRState) (i : Nat) (b0 : Bool) (h : phiTagAt s i = some b0) :
    i ∈ s.insts.map (fun i2 => i2.id) := by
  rw [phiTagAt] at h
  cases hf : findInst s i with
  | none =>
      rw [hf] at h
      exact Option.noConfusion h
  | some inst =>
      rcases findInst_mem s i inst hf with ⟨hmem, hid⟩
      exact List.mem_map.mpr ⟨inst, hmem, hid⟩

theorem freshId_gt_of_mem_ids (s : IRState) (i : Nat)
    (h : i ∈ s.insts.map (fun i2 => i2.id)) : i < freshId s := by
  rcases List.mem_map.mp h with ⟨inst, hmem, hid⟩
  rw [← hid]
  exact freshId_gt_mem s inst hmem

theorem phiTagAt_mkInsert (s1 : IRState) (t : Nat) (ni : Inst) (sh : Nat → Nat)
    (en : List Nat) (i : Nat) (hni : (ni.id == i) = false) :
    phiTagAt (IRState.mk (insertAfterId s1.insts t ni) sh en) i = phiTagAt s1 i := by
  rw [phiTagAt, phiTagAt]
  rw [show findInst (IRState.mk (insertAfterId s1.insts t ni) sh en) i =
    (insertAfterId s1.insts t ni).find? (fun inst => inst.id == i) from rfl]
  rw [find?_insertAfterId t ni i hni s1.insts]
  rfl

/-- A successful `optimize` keeps ids pairwise distinct, leaves the
entry block untouched, and never changes whether an existing id is a
phi node. -/
theorem optimize_preserves (s : IRState) (phiId : Nat) (k : RedKind) (b : Bool)
    (s2 : IRState)
    (hnd : (s.insts.map (fun i => i.id)).Nodup)
    (h : optimize s phiId k = some (b, s2)) :
    (s2.insts.map (fun i => i.id)).Nodup ∧ s2.entry = s.entry ∧
      (∀ i b0, phiTagAt s i = some b0 → phiTagAt s2 i = some b0) := by
  simp only [optimize] at h
  by_cases h1 : (usesOf s (Val.instRef phiId)).length = 1
  · rw [if_pos h1] at h
    have h2 : ((false, s) : Bool × IRState) = (b, s2) := Option.some.inj h
    have hb : s = s2 := congrArg Prod.snd h2
    subst hb
    exact ⟨hnd, rfl, fun i b0 hb0 => hb0⟩
  · rw [if_neg h1] at h
    cases hphi : findInst s phiId with
    | none =>
        simp only [hphi] at h
        exact Option.noConfusion h
    | some phiInst =>
        simp only [hphi] at h
        cases hop : phiInst.operands[chooseLatchIdx s phiInst]? with
        | none =>
            simp only [hop] at h
            exact Option.noConfusion h
        | some v =>
            simp only [hop] at h
            cases v with
            | constVal c => exact Option.noConfusion h
            | externArg e => exact Option.noConfusion h
            | instRef latchId =>
                cases hlc : findInst s latchId with
                | none =>
                    simp only [hlc] at h
                    exact Option.noConfusion h
                | some latchInst =>
                    simp only [hlc] at h
                    rcases replacePhiUses_preserves (Val.constVal (GetNeutralElement k))
                      (usesOf s (Val.instRef phiId)) s with ⟨hids1, hent1, htag1⟩
                    set s1 := replacePhiUses (usesOf s (Val.instRef phiId))
                      (Val.constVal (GetNeutralElement k)) s with hs1def
                    set s3 : IRState :=
                      { insts := insertAfterId s1.insts latchId
                          (CreateReductInst k phiId latchId (freshId s1) latchInst.inRegion)
                        shapes := fun v2 => if v2 = freshId s1 then s.shapes phiId
                          else s1.shapes v2
                        entry := s1.entry } with hs3def
                    have hnd1 : (s1.insts.map (fun i => i.id)).Nodup := by
                      rw [hids1]
                      exact hnd
                    have hnd3 : (s3.insts.map (fun i => i.id)).Nodup := by
                      rw [hs3def]
                      show ((insertAfterId s1.insts latchId
                        (CreateReductInst k phiId latchId (freshId s1)
                          latchInst.inRegion)).map (fun i => i.id)).Nodup
                      apply insertAfterId_ids_nodup
                      · exact hnd1
                      · intro b2 hb2
                        show b2.id ≠ freshId s1
                        have := freshId_gt_mem s1 b2 hb2
                        omega
                    cases hred : redirectUses latchId (freshId s1)
                        (((usesOf s3 (Val.instRef latchId)).length + 1) *
                          ((usesOf s3 (Val.instRef latchId)).length + 1))
                        (usesOf s3 (Val.instRef latchId)) s3 with
                    | none =>
                        simp only [hred] at h
                        exact Option.noConfusion h
                    | some s4 =>
                        simp only [hred] at h
                        have h2 : ((true, setOperand s4 phiId (chooseLatchIdx s phiInst)
                            (Val.instRef (freshId s1))) : Bool × IRState) = (b, s2) :=
                          Option.some.inj h
                        have hs2 : s2 = setOperand s4 phiId (chooseLatchIdx s phiInst)
                            (Val.instRef (freshId s1)) := (congrArg Prod.snd h2).symm
                        rcases redirectUses_preserves latchId (freshId s1) _ _ s3 s4 hred
                          with ⟨hids4, hent4, htag4⟩
                        have hids3 : s3.insts.map (fun i => i.id) =
                            (insertAfterId s1.insts latchId
                              (CreateReductInst k phiId latchId (freshId s1)
                                latchInst.inRegion)).map (fun i => i.id) := by
                          rw [hs3def]
                        refine ⟨?_, ?_, ?_⟩
                        · rw [hs2, setOperand_ids, hids4]
                          exact hnd3
                        · rw [hs2, setOperand_entry, hent4]
                          rw [show s3.entry = s1.entry from by rw [hs3def]]
                          rw [hent1]
                        · intro i b0 hb0
                          rw [hs2, phiTagAt_setOperand, htag4]
                          have htag1i : phiTagAt s1 i = some b0 := by
                            rw [hs1def]
                            exact htag1 i ▸ hb0
                          have hmem : i ∈ s1.insts.map (fun i2 => i2.id) :=
                            phiTagAt_mem s1 i b0 htag1i
                          have hlt : i < freshId s1 := freshId_gt_of_mem_ids s1 i hmem
                          have htag3 : phiTagAt s3 i = phiTagAt s1 i := by
                            rw [hs3def]
                            apply phiTagAt_mkInsert
                            show (freshId s1 == i) = false
                            simp only [beq_eq_false_iff_ne, ne_eq]
                            omega
                          rw [htag3]
                          exact htag1i

end RedOpt

namespace RedOpt

theorem phiTagAt_some (s : IRState) (i : Nat) (b0 : Bool) (h : phiTagAt s i = some b0) :
    ∃ inst, findInst s i = some inst ∧ inst.kind.isPhi = b0 := by
  rw [phiTagAt] at h
  cases hf : findInst s i with
  | none =>
      rw [hf] at h
      exact Option.noConfusion h
  | some inst =>
      rw [hf] at h
      exact ⟨inst, rfl, Option.some.inj h⟩

/-- The entry loop of `run`, characterized over a leading-phi segment
followed by a break point: every phi of the segment is queried exactly
once in order, `optimize` is invoked exactly on those with reduction
info, and the counter counts the applied rewrites. -/
theorem runLoop_spec (reda : Nat → Option RedKind) :
    ∀ (phiIds : List Nat) (rest : List Nat) (s : IRState) (count : Nat)
      (queried invoked applied : List Nat),
      (s.insts.map (fun i => i.id)).Nodup →
      (∀ i ∈ phiIds, phiTagAt s i = some true) →
      (rest = [] ∨ ∃ j rest2, rest = j :: rest2 ∧ phiTagAt s j = some false) →
      ∀ r, runLoop reda (phiIds ++ rest) s count queried invoked applied = some r →
        r.queried = queried ++ phiIds
          ∧ r.invoked = invoked ++ phiIds.filter (fun i => (reda i).isSome)
          ∧ ∃ newApp, r.applied = applied ++ newApp
              ∧ r.numOptimizedReductions = count + newApp.length
              ∧ List.Sublist newApp (phiIds.filter (fun i => (reda i).isSome)) := by
  intro phiIds
  induction phiIds with
  | nil =>
      intro rest s count queried invoked applied hnd hphis hrest r hr
      rw [List.nil_append] at hr
      have hfin : RunResult.mk s count queried invoked applied = r := by
        rcases hrest with hrest | ⟨j, rest2, hre, htag⟩
        · subst hrest
          rw [runLoop] at hr
          exact Option.some.inj hr
        · subst hre
          rcases phiTagAt_some s j false htag with ⟨inst, hfind, hfalse⟩
          simp only [runLoop, hfind] at hr
          cases hkind : inst.kind with
          | phiNode =>
              rw [hkind] at hfalse
              simp [InstKind.isPhi] at hfalse
          | redOp k2 =>
              simp only [hkind] at hr
              exact Option.some.inj hr
          | pureOp f =>
              simp only [hkind] at hr
              exact Option.some.inj hr
      rw [← hfin]
      exact ⟨by simp, by simp, [], by simp, by simp, List.Sublist.refl _⟩
  | cons i phiIds ih =>
      intro rest s count queried invoked applied hnd hphis hrest r hr
      rw [List.cons_append] at hr
      rcases phiTagAt_some s i true (hphis i (List.mem_cons_self _ _)) with
        ⟨inst, hfind, htrue⟩
      simp only [runLoop, hfind] at hr
      have hkind : inst.kind = InstKind.phiNode := by
        cases hk : inst.kind with
        | phiNode => rfl
        | redOp k2 =>
            rw [hk] at htrue
            simp [InstKind.isPhi] at htrue
        | pureOp f =>
            rw [hk] at htrue
            simp [InstKind.isPhi] at htrue
      simp only [hkind] at hr
      cases hreda : reda i with
      | none =>
          simp only [hreda] at hr
          rcases ih rest s count (queried ++ [i]) invoked applied hnd
            (fun i2 h2 => hphis i2 (List.mem_cons_of_mem _ h2)) hrest r hr with
            ⟨hq, hi, newApp, ha, hnum, hsub⟩
          refine ⟨by rw [hq]; simp, ?_, newApp, ha, hnum, ?_⟩
          · rw [hi, List.filter_cons]
            simp [hreda]
          · rw [List.filter_cons]
            simp only [hreda, Option.isSome_none, Bool.false_eq_true, if_false]
            exact hsub
      | some k =>
          simp only [hreda] at hr
          cases hopt : optimize s i k with
          | none =>
              simp only [hopt] at hr
              exact Option.noConfusion hr
          | some p =>
              obtain ⟨changed, s1⟩ := p
              simp only [hopt] at hr
              rcases optimize_preserves s i k changed s1 hnd hopt with ⟨hnd1, _, htag1⟩
              have hrest1 : rest = [] ∨ ∃ j rest2, rest = j :: rest2 ∧
                  phiTagAt s1 j = some false := by
                rcases hrest with hrest | ⟨j, rest2, hre, htag⟩
                · exact Or.inl hrest
                · exact Or.inr ⟨j, rest2, hre, htag1 j false htag⟩
              rcases ih rest s1 (if changed then count + 1 else count) (queried ++ [i])
                (invoked ++ [i]) (if changed then applied ++ [i] else applied) hnd1
                (fun i2 h2 => htag1 i2 true (hphis i2 (List.mem_cons_of_mem _ h2)))
                hrest1 r hr with ⟨hq, hi, newApp, ha, hnum, hsub⟩
              refine ⟨by rw [hq]; simp, ?_, ?_⟩
              · rw [hi, List.filter_cons]
                simp only [hreda, Option.isSome_some, if_true]
                simp
              · cases changed with
                  | true =>
                      refine ⟨i :: newApp, ?_, ?_, ?_⟩
                      · rw [ha]
                        simp
                      · rw [hnum]
                        show count + 1 + newApp.length = count + (i :: newApp).length
                        rw [List.length_cons]
                        omega
                      · rw [List.filter_cons]
                        simp only [hreda, Option.isSome_some, if_true]
                        exact List.Sublist.cons₂ i hsub
                  | false =>
                      refine ⟨newApp, ?_, ?_, ?_⟩
                      · rw [ha]
                        simp
                      · rw [hnum]
                        simp
                      · rw [List.filter_cons]
                        simp only [hreda, Option.isSome_some, if_true]
                        exact List.Sublist.cons i hsub

end RedOpt

namespace RedOpt

/-- C5: `ReductionOptimization::run` returns false without reporting
when there is no region; otherwise it enumerates exactly the leading
phi nodes of the region entry block in their original order (querying
the reduction analysis once per phi), invokes `optimize` exactly once
per phi with reduction info, applies a subset of those, reports the
count of successfully rewritten reductions as the summary output, and
returns whether that count is non-zero. -/
theorem runPass_spec (reda : Nat → Option RedKind) (s : IRState)
    (phiIds rest : List Nat)
    (hnd : (s.insts.map (fun i => i.id)).Nodup)
    (hentry : s.entry = phiIds ++ rest)
    (hphis : ∀ i ∈ phiIds, phiTagAt s i = some true)
    (hrest : rest = [] ∨ ∃ j rest2, rest = j :: rest2 ∧ phiTagAt s j = some false) :
    runPass reda false s = some (false, ⟨s, 0, [], [], []⟩, none)
    ∧ ∀ b r reported, runPass reda true s = some (b, r, reported) →
        r.queried = phiIds
        ∧ r.invoked = phiIds.filter (fun i => (reda i).isSome)
        ∧ List.Sublist r.applied r.invoked
        ∧ r.numOptimizedReductions = r.applied.length
        ∧ reported = some r.numOptimizedReductions
        ∧ b = (r.numOptimizedReductions != 0) := by
  constructor
  · rfl
  · intro b r reported h
    have h2 : (match runLoop reda s.entry s 0 [] [] [] with
        | none => none
        | some r2 => some ((r2.numOptimizedReductions != 0), r2,
            some r2.numOptimizedReductions)) = some (b, r, reported) := h
    cases hrl : runLoop reda s.entry s 0 [] [] [] with
    | none =>
        rw [hrl] at h2
        exact Option.noConfusion h2
    | some r2 =>
        rw [hrl] at h2
        have h3 := Option.some.inj h2
        injection h3 with hb h4
        injection h4 with hrr hrep
        rw [hentry] at hrl
        rcases runLoop_spec reda phiIds rest s 0 [] [] [] hnd hphis hrest r2 hrl with
          ⟨hq, hi, newApp, ha, hnum, hsub⟩
        subst hrr
        refine ⟨by rw [hq]; simp, by rw [hi]; simp, ?_, ?_, ?_, ?_⟩
        · rw [ha, hi]
          simp only [List.nil_append]
          exact hsub
        · rw [hnum, ha]
          simp
        · rw [← hrep]
        · rw [← hb]

end RedOpt

namespace RedOpt

/-- Concrete instance of `runPass_spec`: on `wState2` (entry block =
the reduction phi), the pass queries the analysis for the phi, invokes
and applies one optimization, and reports that count. -/
theorem runPass_spec_witness :
    runPass wReda false wState2 = some (false, ⟨wState2, 0, [], [], []⟩, none)
    ∧ ∀ b r reported, runPass wReda true wState2 = some (b, r, reported) →
        r.queried = [0]
        ∧ r.invoked = [0].filter (fun i => (wReda i).isSome)
        ∧ List.Sublist r.applied r.invoked
        ∧ r.numOptimizedReductions = r.applied.length
        ∧ reported = some r.numOptimizedReductions
        ∧ b = (r.numOptimizedReductions != 0) :=
  runPass_spec wReda wState2 [0] [] (by decide) rfl (by decide) (Or.inl rfl)

end RedOpt

namespace RedOpt

theorem runBody_append (opSem : RedKind → Int → Int → Int) (ext : Nat → Int) :
    ∀ (A B : List Inst) (env : Nat → Int),
      runBody opSem ext (A ++ B) env = runBody opSem ext B (runBody opSem ext A env) := by
  intro A
  induction A with
  | nil => intro B env; rfl
  | cons a A ih =>
      intro B env
      rw [List.cons_append, runBody, runBody]
      exact ih B _

theorem runBody_not_mem (opSem : RedKind → Int → Int → Int) (ext : Nat → Int) :
    ∀ (l : List Inst) (env : Nat → Int) (i : Nat),
      i ∉ l.map (fun i2 => i2.id) → runBody opSem ext l env i = env i := by
  intro l
  induction l with
  | nil => intro env i _; rfl
  | cons a l ih =>
      intro env i hi
      rw [show List.map (fun i2 => i2.id) (a :: l) =
        a.id :: List.map (fun i2 => i2.id) l from rfl] at hi
      rw [runBody, ih _ i (fun hm => hi (List.mem_cons_of_mem _ hm))]
      rw [if_neg (fun he => hi (List.mem_cons.mpr (Or.inl he)))]

theorem evalVal_subst (ext : Nat → Int) (phiId : Nat) (e : Int)
    (env1 env2 : Nat → Int)
    (hagree : ∀ v, v ≠ phiId → env1 v = env2 v) (hphi : env2 phiId = e) (o : Val) :
    evalVal ext env1 (substVal (Val.instRef phiId) (Val.constVal e) o) =
      evalVal ext env2 o := by
  cases o with
  | instRef i =>
      by_cases hi : i = phiId
      · subst hi
        rw [substVal, if_pos (by simp)]
        rw [show evalVal ext env1 (Val.constVal e) = e from rfl]
        rw [show evalVal ext env2 (Val.instRef i) = env2 i from rfl, hphi]
      · rw [substVal, if_neg (by simp [hi])]
        exact hagree i hi
  | constVal c =>
      rw [substVal, if_neg (by simp)]
      rfl
  | externArg i =>
      rw [substVal, if_neg (by simp)]
      rfl

theorem instSem_subst (opSem : RedKind → Int → Int → Int) (ext : Nat → Int)
    (phiId : Nat) (e : Int) (inst : Inst) (env1 env2 : Nat → Int)
    (hid : inst.id ≠ phiId)
    (hagree : ∀ v, v ≠ phiId → env1 v = env2 v) (hphi : env2 phiId = e) :
    instSem opSem ext env1
      { inst with operands := inst.operands.map (substVal (Val.instRef phiId) (Val.constVal e)) } =
      instSem opSem ext env2 inst := by
  have hgetD : ∀ (idx : Nat),
      evalVal ext env1 ((inst.operands.map
          (substVal (Val.instRef phiId) (Val.constVal e))).getD idx (Val.constVal 0)) =
        evalVal ext env2 (inst.operands.getD idx (Val.constVal 0)) := by
    intro idx
    rw [List.getD_eq_getElem?_getD, List.getD_eq_getElem?_getD, List.getElem?_map]
    cases h : inst.operands[idx]? with
    | none => rfl
    | some o =>
        rw [show (Option.map (substVal (Val.instRef phiId) (Val.constVal e)) (some o)).getD
          (Val.constVal 0) = substVal (Val.instRef phiId) (Val.constVal e) o from rfl]
        rw [show (some o).getD (Val.constVal 0) = o from rfl]
        exact evalVal_subst ext phiId e env1 env2 hagree hphi o
  cases hk : inst.kind with
  | redOp k2 =>
      rw [instSem, instSem]
      rw [show ({ inst with operands := inst.operands.map (substVal (Val.instRef phiId) (Val.constVal e)) } : Inst).kind = inst.kind from rfl]
      rw [hk]
      simp only
      rw [hgetD 0, hgetD 1]
  | phiNode =>
      rw [instSem, instSem]
      rw [show ({ inst with operands := inst.operands.map (substVal (Val.instRef phiId) (Val.constVal e)) } : Inst).kind = inst.kind from rfl]
      rw [hk]
      simp only
      exact hagree inst.id hid
  | pureOp f =>
      rw [instSem, instSem]
      rw [show ({ inst with operands := inst.operands.map (substVal (Val.instRef phiId) (Val.constVal e)) } : Inst).kind = inst.kind from rfl]
      rw [hk]
      simp only
      congr 1
      rw [List.map_map]
      apply List.map_congr_left
      intro o _
      exact evalVal_subst ext phiId e env1 env2 hagree hphi o

/-- Replacing the phi's uses by the constant `e` makes the body
compute, for any accumulator, what the original body computes with the
phi bound to `e`. -/
theorem runBody_neutralized (opSem : RedKind → Int → Int → Int) (ext : Nat → Int)
    (phiId : Nat) (e : Int) :
    ∀ (body : List Inst) (env1 env2 : Nat → Int),
      (∀ inst ∈ body, inst.id ≠ phiId) →
      (∀ v, v ≠ phiId → env1 v = env2 v) →
      env2 phiId = e →
      ∀ v, v ≠ phiId →
        runBody opSem ext (body.map (fun inst =>
            { inst with operands := inst.operands.map (substVal (Val.instRef phiId) (Val.constVal e)) })) env1 v =
          runBody opSem ext body env2 v := by
  intro body
  induction body with
  | nil =>
      intro env1 env2 _ hagree _ v hv
      exact hagree v hv
  | cons inst body ih =>
      intro env1 env2 hids hagree hphi v hv
      rw [List.map_cons, runBody, runBody]
      have hid : inst.id ≠ phiId := hids inst (List.mem_cons_self _ _)
      apply ih _ _ (fun i2 h2 => hids i2 (List.mem_cons_of_mem _ h2)) _ _ v hv
      · intro v2 hv2
        rw [show ({ inst with operands := inst.operands.map (substVal (Val.instRef phiId) (Val.constVal e)) } : Inst).id = inst.id from rfl]
        by_cases hvi : v2 = inst.id
        · rw [if_pos hvi, if_pos hvi]
          exact instSem_subst opSem ext phiId e inst env1 env2 hid hagree hphi
        · rw [if_neg hvi, if_neg hvi]
          exact hagree v2 hv2
      · rw [if_neg (fun he => hid he.symm)]
        exact hphi

theorem filter_map_comm {p : Inst → Bool} (g : Inst → Inst) (hpg : ∀ i, p (g i) = p i) :
    ∀ (l : List Inst), (l.map g).filter p = (l.filter p).map g := by
  intro l
  induction l with
  | nil => rfl
  | cons a l ih =>
      rw [List.map_cons, List.filter_cons, List.filter_cons, hpg]
      cases hpa : p a with
      | true => rw [if_pos rfl, if_pos rfl, List.map_cons, ih]
      | false =>
          simp only [Bool.false_eq_true, if_false]
          exact ih

theorem insertAfterId_decomp (ni : Inst) (t : Nat) :
    ∀ (pre : List Inst) (a : Inst) (post : List Inst), a.id = t →
      (∀ b ∈ pre, (b.id == t) = false) →
      insertAfterId (pre ++ a :: post) t ni = pre ++ a :: ni :: post := by
  intro pre
  induction pre with
  | nil =>
      intro a post ha _
      rw [List.nil_append, insertAfterId, if_pos ha, List.nil_append]
  | cons b pre ih =>
      intro a post ha hpre
      rw [List.cons_append, insertAfterId]
      have hb : ¬ b.id = t := by
        have := hpre b (List.mem_cons_self _ _)
        simpa using this
      rw [if_neg hb, ih a post ha (fun c hc => hpre c (List.mem_cons_of_mem _ hc))]
      rfl

end RedOpt

namespace RedOpt

theorem insertAfterId_length (t : Nat) (ni : Inst) :
    ∀ (l : List Inst), (∃ a ∈ l, a.id = t) → (insertAfterId l t ni).length = l.length + 1 := by
  intro l
  induction l with
  | nil =>
      intro h
      rcases h with ⟨a, ha, _⟩
      simp at ha
  | cons b l ih =>
      intro h
      rw [insertAfterId]
      by_cases hb : b.id = t
      · rw [if_pos hb]
        rfl
      · rw [if_neg hb]
        rcases h with ⟨a, ha, hat⟩
        rcases List.mem_cons.mp ha with h1 | h1
        · exact absurd hat (h1 ▸ hb)
        · rw [List.length_cons, List.length_cons, ih ⟨a, h1, hat⟩]

theorem g_region_preserves (tr : Bool) (old nv : Val) (i : Inst) :
    ((if (i.inRegion == tr) = true then { i with operands := i.operands.map (substVal old nv) } else i) : Inst).id = i.id ∧
    ((if (i.inRegion == tr) = true then { i with operands := i.operands.map (substVal old nv) } else i) : Inst).inRegion = i.inRegion := by
  by_cases h : i.inRegion = tr
  · simp [h]
  · simp [h]

theorem g_set_preserves (pId j : Nat) (v : Val) (i : Inst) :
    ((if i.id = pId then setOperandInst i j v else i) : Inst).id = i.id ∧
    ((if i.id = pId then setOperandInst i j v else i) : Inst).inRegion = i.inRegion := by
  by_cases h : i.id = pId
  · simp [h, setOperandInst]
  · simp [h]

/-- Pushing the region filter through the three operand-rewriting maps
of `optimizeResult` and the insertion of the fold instruction. -/
theorem filter_insert_map (g1 g2 g3 : Inst → Inst) (pId : Nat)
    (hg1 : ∀ i : Inst, (g1 i).id = i.id ∧ (g1 i).inRegion = i.inRegion)
    (hg2 : ∀ i : Inst, (g2 i).id = i.id ∧ (g2 i).inRegion = i.inRegion)
    (hg3 : ∀ i : Inst, (g3 i).id = i.id ∧ (g3 i).inRegion = i.inRegion)
    (P Q : List Inst) (latchInst fold : Inst) (t : Nat)
    (hlid : latchInst.id = t)
    (hPid : ∀ b ∈ P, (b.id == t) = false)
    (hlb : (latchInst.inRegion && latchInst.id != pId) = true)
    (hfb : (fold.inRegion && fold.id != pId) = true) :
    (((insertAfterId ((P ++ latchInst :: Q).map g1) t fold).map g2).map g3).filter
        (fun i => i.inRegion && i.id != pId) =
      (P.filter (fun i => i.inRegion && i.id != pId)).map (g3 ∘ g2 ∘ g1)
        ++ g3 (g2 (g1 latchInst)) :: g3 (g2 fold) ::
          (Q.filter (fun i => i.inRegion && i.id != pId)).map (g3 ∘ g2 ∘ g1) := by
  have h32 : ∀ i : Inst, (g3 (g2 i)).id = i.id ∧ (g3 (g2 i)).inRegion = i.inRegion := by
    intro i
    exact ⟨by rw [(hg3 (g2 i)).1, (hg2 i).1], by rw [(hg3 (g2 i)).2, (hg2 i).2]⟩
  have h321 : ∀ i : Inst, (g3 (g2 (g1 i))).id = i.id ∧ (g3 (g2 (g1 i))).inRegion = i.inRegion := by
    intro i
    exact ⟨by rw [(h32 (g1 i)).1, (hg1 i).1], by rw [(h32 (g1 i)).2, (hg1 i).2]⟩
  rw [List.map_append, List.map_cons]
  rw [insertAfterId_decomp fold t (P.map g1) (g1 latchInst) (Q.map g1)
    (by rw [(hg1 latchInst).1, hlid])
    (by
      intro b hb
      rcases List.mem_map.mp hb with ⟨b0, hb0, hbeq⟩
      rw [← hbeq, (hg1 b0).1]
      exact hPid b0 hb0)]
  rw [List.map_append, List.map_cons, List.map_cons,
    List.map_append, List.map_cons, List.map_cons]
  rw [List.filter_append, List.filter_cons, List.filter_cons]
  have hl2 : ((g3 (g2 (g1 latchInst))).inRegion && ((g3 (g2 (g1 latchInst))).id != pId)) = true := by
    rw [(h321 latchInst).1, (h321 latchInst).2]
    exact hlb
  have hf2 : ((g3 (g2 fold)).inRegion && ((g3 (g2 fold)).id != pId)) = true := by
    rw [(h32 fold).1, (h32 fold).2]
    exact hfb
  rw [if_pos hl2, if_pos hf2]
  rw [List.map_map, List.map_map, List.map_map, List.map_map]
  rw [filter_map_comm ((g3 ∘ g2) ∘ g1)
    (by
      intro i
      show ((g3 (g2 (g1 i))).inRegion && ((g3 (g2 (g1 i))).id != pId)) = (i.inRegion && (i.id != pId))
      rw [(h321 i).1, (h321 i).2])]
  rw [filter_map_comm ((g3 ∘ g2) ∘ g1)
    (by
      intro i
      show ((g3 (g2 (g1 i))).inRegion && ((g3 (g2 (g1 i))).id != pId)) = (i.inRegion && (i.id != pId))
      rw [(h321 i).1, (h321 i).2])]
  rfl

theorem regionBody_split (s : IRState) (phiId : Nat) (P Q : List Inst) (latchInst : Inst)
    (hsplit : s.insts = P ++ latchInst :: Q)
    (hlreg : latchInst.inRegion = true) (hlne : latchInst.id ≠ phiId) :
    regionBody s phiId =
      P.filter (fun inst => inst.inRegion && inst.id != phiId)
        ++ latchInst :: Q.filter (fun inst => inst.inRegion && inst.id != phiId) := by
  rw [regionBody, hsplit, List.filter_append, List.filter_cons]
  have hb : (latchInst.inRegion && latchInst.id != phiId) = true := by
    rw [hlreg]
    simp [bne_iff_ne, hlne]
  rw [if_pos hb]

end RedOpt

namespace RedOpt

theorem filter_insert_map_to (g1 g2 g3 n : Inst → Inst) (pId : Nat)
    (hg1 : ∀ i : Inst, (g1 i).id = i.id ∧ (g1 i).inRegion = i.inRegion)
    (hg2 : ∀ i : Inst, (g2 i).id = i.id ∧ (g2 i).inRegion = i.inRegion)
    (hg3 : ∀ i : Inst, (g3 i).id = i.id ∧ (g3 i).inRegion = i.inRegion)
    (P Q : List Inst) (latchInst fold : Inst) (t : Nat)
    (hlid : latchInst.id = t)
    (hPid : ∀ b ∈ P, (b.id == t) = false)
    (hlb : (latchInst.inRegion && latchInst.id != pId) = true)
    (hfb : (fold.inRegion && fold.id != pId) = true)
    (lelem felem : Inst)
    (hn : ∀ i : Inst, (i.inRegion && i.id != pId) = true → g3 (g2 (g1 i)) = n i)
    (hle : g3 (g2 (g1 latchInst)) = lelem)
    (hfe : g3 (g2 fold) = felem) :
    (((insertAfterId ((P ++ latchInst :: Q).map g1) t fold).map g2).map g3).filter
        (fun i => i.inRegion && i.id != pId) =
      (P.filter (fun i => i.inRegion && i.id != pId)).map n
        ++ lelem :: felem :: (Q.filter (fun i => i.inRegion && i.id != pId)).map n := by
  rw [filter_insert_map g1 g2 g3 pId hg1 hg2 hg3 P Q latchInst fold t hlid hPid hlb hfb]
  rw [hle, hfe]
  have hmP : List.map (g3 ∘ g2 ∘ g1) (List.filter (fun i => i.inRegion && i.id != pId) P) =
      List.map n (List.filter (fun i => i.inRegion && i.id != pId) P) :=
    List.map_congr_left (fun i hm => hn i (List.mem_filter.mp hm).2)
  have hmQ : List.map (g3 ∘ g2 ∘ g1) (List.filter (fun i => i.inRegion && i.id != pId) Q) =
      List.map n (List.filter (fun i => i.inRegion && i.id != pId) Q) :=
    List.map_congr_left (fun i hm => hn i (List.mem_filter.mp hm).2)
  rw [hmP, hmQ]

/-- The instruction list of `optimizeResult`, unfolded: neutralize the
in-region phi uses, insert the fold after the latch, redirect
out-of-region latch uses to the fold, rewire the phi's latch slot. -/
theorem optimizeResult_insts (s : IRState) (phiId : Nat) (k : RedKind)
    (latchId latchIdx : Nat) :
    (optimizeResult s phiId k latchId latchIdx).insts =
      ((insertAfterId (s.insts.map (fun i2 => if i2.inRegion == true then { i2 with operands := i2.operands.map (substVal (Val.instRef phiId) (Val.constVal (GetNeutralElement k))) } else i2)) latchId (CreateReductInst k phiId latchId (freshId s) true)).map
          (fun i2 => if i2.inRegion == false then { i2 with operands := i2.operands.map (substVal (Val.instRef latchId) (Val.instRef (freshId s))) } else i2)).map
        (fun i2 => if i2.id = phiId then setOperandInst i2 latchIdx (Val.instRef (freshId s)) else i2) := rfl

theorem opt_step_maps (phiId : Nat) (e : Int) (latchId foldId latchIdx : Nat) (inst : Inst)
    (hreg : inst.inRegion = true) (hid2 : inst.id ≠ phiId) :
    (fun i2 => if i2.id = phiId then setOperandInst i2 latchIdx (Val.instRef foldId) else i2)
      ((fun i2 => if i2.inRegion == false then { i2 with operands := i2.operands.map (substVal (Val.instRef latchId) (Val.instRef foldId)) } else i2)
        ((fun i2 => if i2.inRegion == true then { i2 with operands := i2.operands.map (substVal (Val.instRef phiId) (Val.constVal e)) } else i2) inst)) =
    { inst with operands := inst.operands.map (substVal (Val.instRef phiId) (Val.constVal e)) } := by
  obtain ⟨iid, ikind, iops, ireg⟩ := inst
  have hr2 : ireg = true := hreg
  subst hr2
  have hi2 : iid ≠ phiId := hid2
  show (if iid = phiId
      then setOperandInst ⟨iid, ikind, iops.map (substVal (Val.instRef phiId) (Val.constVal e)), true⟩ latchIdx (Val.instRef foldId)
      else ⟨iid, ikind, iops.map (substVal (Val.instRef phiId) (Val.constVal e)), true⟩) =
    ⟨iid, ikind, iops.map (substVal (Val.instRef phiId) (Val.constVal e)), true⟩
  rw [if_neg hi2]

theorem opt_step_fold (phiId : Nat) (k : RedKind) (latchId foldId latchIdx : Nat)
    (hf : foldId ≠ phiId) :
    (fun i2 => if i2.id = phiId then setOperandInst i2 latchIdx (Val.instRef foldId) else i2)
      ((fun i2 => if i2.inRegion == false then { i2 with operands := i2.operands.map (substVal (Val.instRef latchId) (Val.instRef foldId)) } else i2)
        (CreateReductInst k phiId latchId foldId true)) =
    CreateReductInst k phiId latchId foldId true := by
  show (if foldId = phiId
      then setOperandInst (CreateReductInst k phiId latchId foldId true) latchIdx (Val.instRef foldId)
      else CreateReductInst k phiId latchId foldId true) =
    CreateReductInst k phiId latchId foldId true
  rw [if_neg hf]

theorem optimizeResult_length (s : IRState) (phiId : Nat) (k : RedKind)
    (latchId latchIdx : Nat) (latchInst : Inst)
    (hmem : latchInst ∈ s.insts) (hlid : latchInst.id = latchId) :
    (optimizeResult s phiId k latchId latchIdx).insts.length = s.insts.length + 1 := by
  rw [optimizeResult_insts, List.length_map, List.length_map]
  rw [insertAfterId_length latchId (CreateReductInst k phiId latchId (freshId s) true)
    (s.insts.map (fun i2 => if i2.inRegion == true then { i2 with operands := i2.operands.map (substVal (Val.instRef phiId) (Val.constVal (GetNeutralElement k))) } else i2))
    ⟨_, List.mem_map_of_mem (fun i2 => if i2.inRegion == true then { i2 with operands := i2.operands.map (substVal (Val.instRef phiId) (Val.constVal (GetNeutralElement k))) } else i2) hmem,
      (g_region_preserves true (Val.instRef phiId) (Val.constVal (GetNeutralElement k)) latchInst).1.trans hlid⟩]
  rw [List.length_map]

/-- After `optimizeResult`, the loop body seen inside the region is
the neutralized original body with the fold instruction spliced in
right after the latch. -/
theorem regionBody_optimizeResult (s : IRState) (phiId : Nat) (k : RedKind)
    (latchId latchIdx : Nat) (P Q : List Inst) (latchInst : Inst)
    (hsplit : s.insts = P ++ latchInst :: Q)
    (hPid : ∀ b ∈ P, (b.id == latchId) = false)
    (hlid : latchInst.id = latchId)
    (hlreg : latchInst.inRegion = true)
    (hne : latchId ≠ phiId)
    (hfresh : freshId s ≠ phiId) :
    regionBody (optimizeResult s phiId k latchId latchIdx) phiId =
      (P.filter (fun i => i.inRegion && i.id != phiId)).map
          (fun i2 => { i2 with operands := i2.operands.map (substVal (Val.instRef phiId) (Val.constVal (GetNeutralElement k))) })
        ++ ({ latchInst with operands := latchInst.operands.map (substVal (Val.instRef phiId) (Val.constVal (GetNeutralElement k))) } : Inst) ::
          CreateReductInst k phiId latchId (freshId s) true ::
          (Q.filter (fun i => i.inRegion && i.id != phiId)).map
            (fun i2 => { i2 with operands := i2.operands.map (substVal (Val.instRef phiId) (Val.constVal (GetNeutralElement k))) }) := by
  rw [regionBody, optimizeResult_insts, hsplit]
  rw [filter_insert_map_to
    (fun i2 => if i2.inRegion == true then { i2 with operands := i2.operands.map (substVal (Val.instRef phiId) (Val.constVal (GetNeutralElement k))) } else i2)
    (fun i2 => if i2.inRegion == false then { i2 with operands := i2.operands.map (substVal (Val.instRef latchId) (Val.instRef (freshId s))) } else i2)
    (fun i2 => if i2.id = phiId then setOperandInst i2 latchIdx (Val.instRef (freshId s)) else i2)
    (fun i2 => { i2 with operands := i2.operands.map (substVal (Val.instRef phiId) (Val.constVal (GetNeutralElement k))) })
    phiId
    (fun i => g_region_preserves true (Val.instRef phiId) (Val.constVal (GetNeutralElement k)) i)
    (fun i => g_region_preserves false (Val.instRef latchId) (Val.instRef (freshId s)) i)
    (fun i => g_set_preserves phiId latchIdx (Val.instRef (freshId s)) i)
    P Q latchInst (CreateReductInst k phiId latchId (freshId s) true) latchId
    hlid hPid
    (by rw [hlreg, hlid]; simp [bne_iff_ne, hne])
    (by simp [CreateReductInst, bne_iff_ne, hfresh])
    ({ latchInst with operands := latchInst.operands.map (substVal (Val.instRef phiId) (Val.constVal (GetNeutralElement k))) } : Inst)
    (CreateReductInst k phiId latchId (freshId s) true)
    (fun i hi => by
      rw [Bool.and_eq_true] at hi
      exact opt_step_maps phiId (GetNeutralElement k) latchId (freshId s) latchIdx i hi.1
        (by simpa [bne_iff_ne] using hi.2))
    (opt_step_maps phiId (GetNeutralElement k) latchId (freshId s) latchIdx latchInst hlreg
      (by rw [hlid]; exact hne))
    (opt_step_fold phiId k latchId (freshId s) latchIdx hfresh)]

end RedOpt

namespace RedOpt

theorem evalVal_instRef (ext env : Nat → Int) (i : Nat) :
    evalVal ext env (Val.instRef i) = env i := rfl

theorem update_at (env : Nat → Int) (j : Nat) (a : Int) (v : Nat) :
    (fun v2 => if v2 = j then a else env v2) v = if v = j then a else env v := rfl

theorem phiEnv_self (p : Nat) (a : Int) : phiEnv p a p = a := if_pos rfl

theorem phiEnv_other (p : Nat) (a : Int) (v : Nat) (h : v ≠ p) : phiEnv p a v = 0 := if_neg h

theorem instSem_CreateReduct (opSem : RedKind → Int → Int → Int) (ext : Nat → Int)
    (env : Nat → Int) (k : RedKind) (phiId latchId foldId : Nat) (region : Bool) :
    instSem opSem ext env (CreateReductInst k phiId latchId foldId region) =
      opSem k (env phiId) (env latchId) := rfl

/-- Running the rewritten body once from accumulator `acc` and reading
the fold yields `opSem k acc` of the latch value of the original body
run from the neutral element `e`. -/
theorem fold_step_value (opSem : RedKind → Int → Int → Int) (ext : Nat → Int)
    (phiId latchId foldId : Nat) (k : RedKind) (e acc : Int)
    (A B : List Inst) (latchInst : Inst)
    (hlid : latchInst.id = latchId)
    (hids : ∀ inst ∈ A ++ latchInst :: B, inst.id ≠ phiId)
    (hlatchB : latchId ∉ B.map (fun i => i.id))
    (hfoldB : foldId ∉ (B.map (fun i2 => ({ i2 with operands := i2.operands.map (substVal (Val.instRef phiId) (Val.constVal e)) } : Inst))).map (fun i => i.id)) :
    runBody opSem ext
        ((A.map (fun i2 => ({ i2 with operands := i2.operands.map (substVal (Val.instRef phiId) (Val.constVal e)) } : Inst)))
          ++ ({ latchInst with operands := latchInst.operands.map (substVal (Val.instRef phiId) (Val.constVal e)) } : Inst)
            :: CreateReductInst k phiId latchId foldId true
            :: (B.map (fun i2 => ({ i2 with operands := i2.operands.map (substVal (Val.instRef phiId) (Val.constVal e)) } : Inst))))
        (phiEnv phiId acc) foldId =
      opSem k acc (runBody opSem ext (A ++ latchInst :: B) (phiEnv phiId e) latchId) := by
  have hmapAL : (A.map (fun i2 => ({ i2 with operands := i2.operands.map (substVal (Val.instRef phiId) (Val.constVal e)) } : Inst)))
      ++ ({ latchInst with operands := latchInst.operands.map (substVal (Val.instRef phiId) (Val.constVal e)) } : Inst)
        :: CreateReductInst k phiId latchId foldId true
        :: (B.map (fun i2 => ({ i2 with operands := i2.operands.map (substVal (Val.instRef phiId) (Val.constVal e)) } : Inst)))
      = ((A ++ [latchInst]).map (fun i2 => ({ i2 with operands := i2.operands.map (substVal (Val.instRef phiId) (Val.constVal e)) } : Inst)))
        ++ CreateReductInst k phiId latchId foldId true
          :: (B.map (fun i2 => ({ i2 with operands := i2.operands.map (substVal (Val.instRef phiId) (Val.constVal e)) } : Inst))) := by
    rw [List.map_append, List.append_assoc]
    rfl
  rw [hmapAL, runBody_append, runBody]
  rw [runBody_not_mem opSem ext _ _ foldId hfoldB]
  have hc : foldId = (CreateReductInst k phiId latchId foldId true).id := rfl
  rw [if_pos hc, instSem_CreateReduct]
  have hALids : ∀ inst ∈ A ++ [latchInst], inst.id ≠ phiId := by
    intro inst hm
    apply hids inst
    rcases List.mem_append.mp hm with h | h
    · exact List.mem_append.mpr (Or.inl h)
    · rw [List.mem_singleton] at h
      exact List.mem_append.mpr (Or.inr (h ▸ List.mem_cons_self _ _))
  have hne2 : latchId ≠ phiId := hlid ▸ hALids latchInst (List.mem_append.mpr (Or.inr (List.mem_singleton.mpr rfl)))
  have hphiNotIn : phiId ∉ ((A ++ [latchInst]).map (fun i2 => ({ i2 with operands := i2.operands.map (substVal (Val.instRef phiId) (Val.constVal e)) } : Inst))).map (fun i => i.id) := by
    intro hm
    rcases List.mem_map.mp hm with ⟨b, hb, hbid⟩
    rcases List.mem_map.mp hb with ⟨b0, hb0, hbeq⟩
    apply hALids b0 hb0
    rw [← hbid, ← hbeq]
  have hE1phi : runBody opSem ext
      ((A ++ [latchInst]).map (fun i2 => ({ i2 with operands := i2.operands.map (substVal (Val.instRef phiId) (Val.constVal e)) } : Inst)))
      (phiEnv phiId acc) phiId = acc := by
    rw [runBody_not_mem opSem ext _ _ phiId hphiNotIn]
    exact phiEnv_self phiId acc
  have hE2latch : runBody opSem ext (A ++ latchInst :: B) (phiEnv phiId e) latchId
      = runBody opSem ext (A ++ [latchInst]) (phiEnv phiId e) latchId := by
    rw [show A ++ latchInst :: B = (A ++ [latchInst]) ++ B from by rw [List.append_assoc]; rfl]
    rw [runBody_append]
    rw [runBody_not_mem opSem ext B _ latchId hlatchB]
  have hE1latch : runBody opSem ext
      ((A ++ [latchInst]).map (fun i2 => ({ i2 with operands := i2.operands.map (substVal (Val.instRef phiId) (Val.constVal e)) } : Inst)))
      (phiEnv phiId acc) latchId
      = runBody opSem ext (A ++ [latchInst]) (phiEnv phiId e) latchId := by
    apply runBody_neutralized opSem ext phiId e (A ++ [latchInst]) _ _ hALids
      (fun v hv => by rw [phiEnv_other phiId acc v hv, phiEnv_other phiId e v hv])
      (phiEnv_self phiId e)
      latchId hne2
  rw [hE1phi, hE2latch, hE1latch]

end RedOpt

namespace RedOpt

/-- C1: for every reduction that `optimize` rewrites (result `true`),
the externally observed value of the reduction is identical before and
after the transform — after any number of loop iterations from any
initial accumulator, the value at which external users now read the
result (the new fold instruction, which also feeds the phi) equals the
value at which they read it before (the latch) — and exactly one
additional instruction (the fold combining the phi with the latch
value) is introduced.  `hhom` is the chain property certified by the
reduction analysis: one body evaluation from accumulator `x` combines
`x` with the body's own contribution (its latch value at the neutral
element) through the reduction operation. -/
theorem optimize_preserves_reduction (opSem : RedKind → Int → Int → Int) (ext : Nat → Int)
    (s : IRState) (phiId : Nat) (k : RedKind) (phiInst latchInst : Inst) (latchId : Nat)
    (init : Int)
    (hnd : (s.insts.map (fun i => i.id)).Nodup)
    (hphi : findInst s phiId = some phiInst)
    (huses : ¬ (usesOf s (Val.instRef phiId)).length = 1)
    (hlatchIdx : phiInst.operands[chooseLatchIdx s phiInst]? = some (Val.instRef latchId))
    (hlatch : findInst s latchId = some latchInst)
    (hlatchRegion : latchInst.inRegion = true)
    (hne : latchId ≠ phiId)
    (hhom : ∀ x : Int, latchValueAt opSem ext s phiId latchId x =
        opSem k x (latchValueAt opSem ext s phiId latchId (GetNeutralElement k))) :
    ∃ s2, optimize s phiId k = some (true, s2)
      ∧ s2.insts.length = s.insts.length + 1
      ∧ ∀ n : Nat,
          loopObserved opSem ext (regionBody s2 phiId) phiId (Val.instRef (freshId s)) init n =
            loopObserved opSem ext (regionBody s phiId) phiId (Val.instRef latchId) init n := by
  refine ⟨optimizeResult s phiId k latchId (chooseLatchIdx s phiInst),
    optimize_applied_eq s phiId k phiInst latchInst latchId hnd hphi huses hlatchIdx hlatch
      hlatchRegion, ?_, ?_⟩
  · exact optimizeResult_length s phiId k latchId (chooseLatchIdx s phiInst) latchInst
      (findInst_mem s latchId latchInst hlatch).1 (findInst_mem s latchId latchInst hlatch).2
  · rcases find?_split s.insts (fun inst => inst.id == latchId) latchInst hlatch with
      ⟨P, Q, hsplit, hPid⟩
    have hlid : latchInst.id = latchId := (findInst_mem s latchId latchInst hlatch).2
    have hphimem := (findInst_mem s phiId phiInst hphi).1
    have hphid : phiInst.id = phiId := (findInst_mem s phiId phiInst hphi).2
    have hfresh : freshId s ≠ phiId := by
      have h1 := freshId_gt_mem s phiInst hphimem
      rw [hphid] at h1
      omega
    have hlatchIdNe : latchInst.id ≠ phiId := by rw [hlid]; exact hne
    have hbodyS : regionBody s phiId =
        P.filter (fun inst => inst.inRegion && inst.id != phiId)
          ++ latchInst :: Q.filter (fun inst => inst.inRegion && inst.id != phiId) :=
      regionBody_split s phiId P Q latchInst hsplit hlatchRegion hlatchIdNe
    have hbody2 := regionBody_optimizeResult s phiId k latchId (chooseLatchIdx s phiInst)
      P Q latchInst hsplit hPid hlid hlatchRegion hne hfresh
    have hids : ∀ inst ∈ (P.filter (fun i => i.inRegion && i.id != phiId))
        ++ latchInst :: (Q.filter (fun i => i.inRegion && i.id != phiId)), inst.id ≠ phiId := by
      intro inst hm
      rcases List.mem_append.mp hm with h | h
      · have hb := (List.mem_filter.mp h).2
        rw [Bool.and_eq_true] at hb
        simpa [bne_iff_ne] using hb.2
      · rcases List.mem_cons.mp h with h1 | h1
        · rw [h1]
          exact hlatchIdNe
        · have hb := (List.mem_filter.mp h1).2
          rw [Bool.and_eq_true] at hb
          simpa [bne_iff_ne] using hb.2
    have hndQ : latchId ∉ (Q.filter (fun i => i.inRegion && i.id != phiId)).map
        (fun i => i.id) := by
      intro hm
      rcases List.mem_map.mp hm with ⟨b, hb, hbid⟩
      have hnd2 := hnd
      rw [hsplit, List.map_append, List.map_cons] at hnd2
      have hlq := (List.nodup_cons.mp (List.nodup_append.mp hnd2).2.1).1
      apply hlq
      rw [hlid, ← hbid]
      exact List.mem_map_of_mem (fun i => i.id) (List.mem_of_mem_filter hb)
    have hfoldQ : freshId s ∉ ((Q.filter (fun i => i.inRegion && i.id != phiId)).map
        (fun i2 => ({ i2 with operands := i2.operands.map (substVal (Val.instRef phiId) (Val.constVal (GetNeutralElement k))) } : Inst))).map (fun i => i.id) := by
      intro hm
      rcases List.mem_map.mp hm with ⟨b, hb, hbid⟩
      rcases List.mem_map.mp hb with ⟨b0, hb0, hbeq⟩
      have hb0mem : b0 ∈ s.insts := by
        rw [hsplit]
        exact List.mem_append.mpr (Or.inr (List.mem_cons_of_mem _ (List.mem_of_mem_filter hb0)))
      have hlt := freshId_gt_mem s b0 hb0mem
      rw [← hbeq] at hbid
      have hbid2 : b0.id = freshId s := hbid
      omega
    have hstep : ∀ acc : Int,
        evalVal ext (runBody opSem ext
            (regionBody (optimizeResult s phiId k latchId (chooseLatchIdx s phiInst)) phiId)
            (phiEnv phiId acc)) (Val.instRef (freshId s)) =
          latchValueAt opSem ext s phiId latchId acc := by
      intro acc
      rw [hhom acc, hbody2, evalVal_instRef, latchValueAt, hbodyS, evalVal_instRef]
      exact fold_step_value opSem ext phiId latchId (freshId s) k (GetNeutralElement k) acc
        (P.filter (fun i => i.inRegion && i.id != phiId))
        (Q.filter (fun i => i.inRegion && i.id != phiId))
        latchInst hlid hids hndQ hfoldQ
    intro n
    induction n with
    | zero => rfl
    | succ n ihn =>
        rw [loopObserved, loopObserved, ihn, hstep]
        rfl

end RedOpt

namespace RedOpt

theorem optimize_preserves_reduction_witness :
    ∃ s2, optimize wState2 0 RedKind.add = some (true, s2)
      ∧ s2.insts.length = wState2.insts.length + 1
      ∧ ∀ n : Nat,
          loopObserved (fun _ a b => a + b) (fun i => (i : Int)) (regionBody s2 0) 0
              (Val.instRef (freshId wState2)) 5 n =
            loopObserved (fun _ a b => a + b) (fun i => (i : Int)) (regionBody wState2 0) 0
              (Val.instRef 1) 5 n :=
  optimize_preserves_reduction (fun _ a b => a + b) (fun i => (i : Int)) wState2 0 RedKind.add
    wPhi1 wLatch1 1 5 (by decide) rfl (by decide) rfl rfl rfl (by decide)
    (by
      intro x
      show (x + 1 : Int) = x + (0 + 1)
      simp)

end RedOpt
